import Mathlib

/-!
Verification of the structural change-tracking and synchronization engine
(`zuu`): a shallow embedding of `src/zuu/simple_dict.py`,
`src/zuu/dict_patterns.py`, `src/zuu/diffdict.py` and `src/zuu/syncdict.py`,
together with proofs and refutations of the specified properties.

Python values are modelled by the mutual inductive `PyVal`/`PyObj`/`PyArr`
(ordered mappings, sequences, and the scalar leaves the engine supports).
Machine-level details (SHA-1, UTF-8, decimal rendering) are implemented
directly over `Nat`/`Int`.
-/

set_option maxHeartbeats 1000000
set_option maxRecDepth 40000

/-- Scalar (non-container) Python values used by the engine:
strings, integers, booleans and `None`.  (Floats are out of scope.) -/
inductive Scalar where
  | str (v : String)
  | int (v : Int)
  | bool (v : Bool)
  | pynone
  deriving DecidableEq, Repr

mutual
/-- A Python value: a scalar leaf, an (insertion-ordered) dict, or a list. -/
inductive PyVal where
  | scalar (s : Scalar)
  | dict (o : PyObj)
  | list (a : PyArr)
  deriving DecidableEq, Repr

/-- An insertion-ordered Python dict with `String` keys. -/
inductive PyObj where
  | nil
  | cons (k : String) (v : PyVal) (rest : PyObj)
  deriving DecidableEq, Repr

/-- A Python list. -/
inductive PyArr where
  | nil
  | cons (v : PyVal) (rest : PyArr)
  deriving DecidableEq, Repr
end

namespace PyObj

/-- `o.get k`: the value stored under key `k` (first occurrence), if any. -/
def get : PyObj → String → Option PyVal
  | .nil, _ => none
  | .cons k v rest, key => if k = key then some v else rest.get key

/-- `k in o` for a Python dict. -/
def hasKey (o : PyObj) (key : String) : Bool :=
  (o.get key).isSome

/-- `o[k] = v` on a Python dict: updates in place if the key exists,
otherwise appends (insertion order preserved). -/
def set : PyObj → String → PyVal → PyObj
  | .nil, key, v => .cons key v .nil
  | .cons k v0 rest, key, v =>
    if k = key then .cons k v rest else .cons k v0 (rest.set key v)

/-- `o.pop(k)`: removes the key, returning the removed value if present. -/
def pop : PyObj → String → Option PyVal × PyObj
  | .nil, _ => (none, .nil)
  | .cons k v rest, key =>
    if k = key then (some v, rest)
    else
      let (r, rest') := rest.pop key
      (r, .cons k v rest')

/-- The keys of the dict, in insertion order. -/
def keys : PyObj → List String
  | .nil => []
  | .cons k _ rest => k :: rest.keys

/-- Number of entries. -/
def length : PyObj → Nat
  | .nil => 0
  | .cons _ _ rest => rest.length + 1

/-- Entries as a Lean association list, in insertion order. -/
def entries : PyObj → List (String × PyVal)
  | .nil => []
  | .cons k v rest => (k, v) :: rest.entries

/-- Builds a `PyObj` from a (duplicate-free) Lean association list. -/
def ofList : List (String × PyVal) → PyObj
  | [] => .nil
  | (k, v) :: rest => .cons k v (ofList rest)

end PyObj

namespace PyArr

/-- Length of a Python list. -/
def length : PyArr → Nat
  | .nil => 0
  | .cons _ rest => rest.length + 1

/-- Indexing, `a[i]` for `0 ≤ i < len(a)`. -/
def get : PyArr → Nat → Option PyVal
  | .nil, _ => none
  | .cons v _, 0 => some v
  | .cons _ rest, n + 1 => rest.get n

/-- `a[i] = v` (in range only). -/
def set : PyArr → Nat → PyVal → PyArr
  | .nil, _, _ => .nil
  | .cons _ rest, 0, v => .cons v rest
  | .cons v0 rest, n + 1, v => .cons v0 (rest.set n v)

/-- `a.pop(i)`: removes the element at index `i`, shifting later elements. -/
def pop : PyArr → Nat → Option PyVal × PyArr
  | .nil, _ => (none, .nil)
  | .cons v rest, 0 => (some v, rest)
  | .cons v rest, n + 1 =>
    let (r, rest') := rest.pop n
    (r, .cons v rest')

/-- List entries as a Lean list. -/
def entries : PyArr → List PyVal
  | .nil => []
  | .cons v rest => v :: rest.entries

/-- Builds a `PyArr` from a Lean list. -/
def ofList : List PyVal → PyArr
  | [] => .nil
  | v :: rest => .cons v (ofList rest)

end PyArr

/-! ### Python `==` on the modelled values

Python compares booleans and integers numerically (`True == 1`),
strings only to strings, and containers element-wise (dicts ignoring
key order). -/

/-- Numeric view used by Python `==`: `True` is `1`, `False` is `0`. -/
def Scalar.numVal : Scalar → Option Int
  | .int n => some n
  | .bool b => some (if b then 1 else 0)
  | _ => none

/-- Python `==` on scalars. -/
def Scalar.pyEq (a b : Scalar) : Bool :=
  match a.numVal, b.numVal with
  | some m, some n => m == n
  | _, _ =>
    match a, b with
    | .str s, .str t => s == t
    | .pynone, .pynone => true
    | _, _ => false

mutual
/-- Python `==` on values. -/
def PyVal.pyEq : PyVal → PyVal → Bool
  | .scalar a, .scalar b => a.pyEq b
  | .dict o1, .dict o2 => o1.length == o2.length && PyObj.pyEqSub o1 o2
  | .list a1, .list a2 => PyArr.pyEq a1 a2
  | _, _ => false

/-- every entry of the first dict appears, `==`-equal, in the second. -/
def PyObj.pyEqSub : PyObj → PyObj → Bool
  | .nil, _ => true
  | .cons k v rest, o2 =>
    (match o2.get k with
     | some w => PyVal.pyEq v w
     | none => false)
    && PyObj.pyEqSub rest o2

/-- Python `==` on lists: same length, element-wise equal. -/
def PyArr.pyEq : PyArr → PyArr → Bool
  | .nil, .nil => true
  | .cons v r1, .cons w r2 => PyVal.pyEq v w && PyArr.pyEq r1 r2
  | _, _ => false
end

/-! ### Python `str()` / `repr()` of the modelled values -/

/-- The apostrophe character (Python's default string-repr quote). -/
def squote : Char := Char.ofNat 39

/-- The double-quote character. -/
def dquote : Char := Char.ofNat 34

/-- Decimal digits, least significant first, by fuel (structurally
recursive so that proofs can evaluate it); `fuel ≥ n` suffices. -/
def natDigitsRevAux : Nat → Nat → List Nat
  | _, 0 => []
  | 0, _ + 1 => []
  | fuel + 1, n + 1 => (n + 1) % 10 :: natDigitsRevAux fuel ((n + 1) / 10)

/-- Decimal digits of `n`, least significant first (empty for `0`). -/
def natDigitsRev (n : Nat) : List Nat :=
  natDigitsRevAux n n

/-- Reassembles a natural number from its `natDigitsRev` digits. -/
def natOfDigitsRev : List Nat → Nat
  | [] => 0
  | d :: rest => d + 10 * natOfDigitsRev rest

/-- The character for a decimal digit. -/
def digitChar (d : Nat) : Char := Char.ofNat (48 + d)

/-- Python `str()` of a non-negative integer. -/
def strOfNat (n : Nat) : String :=
  if n = 0 then "0" else ⟨(natDigitsRev n).reverse.map digitChar⟩

/-- Python `str()` of an integer. -/
def strOfInt : Int → String
  | .ofNat n => strOfNat n
  | .negSucc n => "-" ++ strOfNat (n + 1)

/-- Python `str()` of a scalar. -/
def Scalar.pyStr : Scalar → String
  | .str s => s
  | .int n => strOfInt n
  | .bool true => "True"
  | .bool false => "False"
  | .pynone => "None"

/-- Hex character for a nibble. -/
def hexChar (d : Nat) : Char :=
  if d < 10 then Char.ofNat (48 + d) else Char.ofNat (87 + d)

/-- Python `repr()` escape of one character inside a quoted string literal:
the active quote and backslashes are escaped, control characters use
`\xhh`/`\n`/`\r`/`\t`, printable characters stand for themselves. -/
def reprEscapeChar (quote : Char) (c : Char) : List Char :=
  if c = '\\' then ['\\', '\\']
  else if c = quote then ['\\', quote]
  else if c = '\n' then ['\\', 'n']
  else if c = '\r' then ['\\', 'r']
  else if c = '\t' then ['\\', 't']
  else if c.toNat < 32 || c.toNat = 127 then
    ['\\', 'x', hexChar (c.toNat / 16), hexChar (c.toNat % 16)]
  else [c]

/-- Python `repr()` of a string: single-quoted unless the string contains
a single quote but no double quote. -/
def pyReprStr (s : String) : String :=
  let q := if s.data.contains squote && !(s.data.contains dquote) then dquote
           else squote
  ⟨q :: (s.data.flatMap (reprEscapeChar q)) ++ [q]⟩

/-- Python `repr()` of a scalar (strings quoted, others as `str()`). -/
def Scalar.pyRepr : Scalar → String
  | .str s => pyReprStr s
  | s => s.pyStr

mutual
/-- Python `repr()` of a value (`str()` and `repr()` agree on containers). -/
def PyVal.pyRepr : PyVal → String
  | .scalar s => s.pyRepr
  | .dict o => "\x7b" ++ PyObj.reprBody o ++ "\x7d"
  | .list a => "[" ++ PyArr.reprBody a ++ "]"

/-- comma-joined `repr(k): repr(v)` entries of a dict. -/
def PyObj.reprBody : PyObj → String
  | .nil => ""
  | .cons k v .nil => pyReprStr k ++ ": " ++ PyVal.pyRepr v
  | .cons k v rest =>
    pyReprStr k ++ ": " ++ PyVal.pyRepr v ++ ", " ++ PyObj.reprBody rest

/-- comma-joined `repr(v)` entries of a list. -/
def PyArr.reprBody : PyArr → String
  | .nil => ""
  | .cons v .nil => PyVal.pyRepr v
  | .cons v rest => PyVal.pyRepr v ++ ", " ++ PyArr.reprBody rest
end

/-- Python `str()` of a value: scalars by `Scalar.pyStr`, containers as
their `repr()`. -/
def PyVal.pyStr : PyVal → String
  | .scalar s => s.pyStr
  | v => v.pyRepr

/-! ### UTF-8 and SHA-1 (`hashlib.sha1(...).hexdigest()`)

Words are `Nat`s kept below `2 ^ 32` explicitly. -/

/-- UTF-8 encoding of one code point. -/
def utf8Char (c : Char) : List Nat :=
  let n := c.toNat
  if n < 0x80 then [n]
  else if n < 0x800 then [0xC0 + n / 64, 0x80 + n % 64]
  else if n < 0x10000 then
    [0xE0 + n / 4096, 0x80 + n / 64 % 64, 0x80 + n % 64]
  else
    [0xF0 + n / 262144, 0x80 + n / 4096 % 64, 0x80 + n / 64 % 64, 0x80 + n % 64]

/-- UTF-8 bytes of a string (`str.encode()`). -/
def utf8Bytes (s : String) : List Nat :=
  s.data.flatMap utf8Char

/-- 32-bit truncation. -/
def w32 (n : Nat) : Nat := n % 4294967296

/-- 32-bit left rotation. -/
def rotl32 (b n : Nat) : Nat :=
  w32 (n * 2 ^ b + n / 2 ^ (32 - b))

/-- SHA-1 padding: `0x80`, zeros to 56 mod 64, then the 64-bit big-endian
bit length. -/
def sha1Pad (msg : List Nat) : List Nat :=
  let len := msg.length
  let zeros := (119 - len % 64) % 64
  msg ++ 0x80 :: List.replicate zeros 0 ++
    ((List.range 8).reverse.map fun i => len * 8 / 2 ^ (8 * i) % 256)

/-- Big-endian 32-bit words from a byte list. -/
def bytesToWords : List Nat → List Nat
  | b0 :: b1 :: b2 :: b3 :: rest =>
    (((b0 * 256 + b1) * 256 + b2) * 256 + b3) :: bytesToWords rest
  | _ => []

/-- SHA-1 message-schedule extension: appends `fuel` more words, each the
1-rotation of the xor of the words 3, 8, 14 and 16 places back. -/
def sha1Extend : Nat → Array Nat → Array Nat
  | 0, w => w
  | fuel + 1, w =>
    let t := w.size
    let x := (w.getD (t - 3) 0) ^^^ (w.getD (t - 8) 0) ^^^
             (w.getD (t - 14) 0) ^^^ (w.getD (t - 16) 0)
    sha1Extend fuel (w.push (rotl32 1 x))

/-- The SHA-1 round function `f` for round `t`. -/
def sha1F (t b c d : Nat) : Nat :=
  if t < 20 then (b &&& c) ||| ((4294967295 - b) &&& d)
  else if t < 40 then b ^^^ c ^^^ d
  else if t < 60 then (b &&& c) ||| (b &&& d) ||| (c &&& d)
  else b ^^^ c ^^^ d

/-- The SHA-1 round constant for round `t`. -/
def sha1K (t : Nat) : Nat :=
  if t < 20 then 0x5A827999
  else if t < 40 then 0x6ED9EBA1
  else if t < 60 then 0x8F1BBCDC
  else 0xCA62C1D6

/-- One round of the SHA-1 compression loop. -/
def sha1Round (w : Array Nat) (st : Nat × Nat × Nat × Nat × Nat) (t : Nat) :
    Nat × Nat × Nat × Nat × Nat :=
  let (a, b, c, d, e) := st
  let tmp := w32 (rotl32 5 a + sha1F t b c d + e + sha1K t + w.getD t 0)
  (tmp, a, rotl32 30 b, c, d)

/-- Processes one 16-word chunk into the running hash state. -/
def sha1Chunk (h : Nat × Nat × Nat × Nat × Nat) (chunk : List Nat) :
    Nat × Nat × Nat × Nat × Nat :=
  let w := sha1Extend 64 (Array.mk chunk)
  let (h0, h1, h2, h3, h4) := h
  let (a, b, c, d, e) :=
    (List.range 80).foldl (sha1Round w) (h0, h1, h2, h3, h4)
  (w32 (h0 + a), w32 (h1 + b), w32 (h2 + c), w32 (h3 + d), w32 (h4 + e))

/-- Splits a word list into 16-word chunks (by fuel; `fuel ≥ length`
suffices). -/
def chunks16Aux : Nat → List Nat → List (List Nat)
  | 0, _ => []
  | fuel + 1, ws =>
    if ws.length < 16 then []
    else ws.take 16 :: chunks16Aux fuel (ws.drop 16)

/-- Splits a word list into 16-word chunks. -/
def chunks16 (ws : List Nat) : List (List Nat) :=
  chunks16Aux ws.length ws

/-- SHA-1 of a byte list: the five 32-bit state words. -/
def sha1Words (msg : List Nat) : Nat × Nat × Nat × Nat × Nat :=
  (chunks16 (bytesToWords (sha1Pad msg))).foldl sha1Chunk
    (0x67452301, 0xEFCDAB89, 0x98BADCFE, 0x10325476, 0xC3D2E1F0)

/-- Lower-case hex rendering of a 32-bit word (8 characters). -/
def hex8 (n : Nat) : List Char :=
  (List.range 8).map fun i => hexChar (n / 2 ^ (4 * (7 - i)) % 16)

/-- `hashlib.sha1(s.encode()).hexdigest()`: 40 lower-case hex characters. -/
def sha1Hex (s : String) : String :=
  let w := sha1Words (utf8Bytes s)
  ⟨hex8 w.1 ++ hex8 w.2.1 ++ hex8 w.2.2.1 ++ hex8 w.2.2.2.1 ++ hex8 w.2.2.2.2⟩

/-! ### Fingerprinting (`DiffDict.__compare`'s hashing rule)

`isinstance(val, (str, int, float))` holds for strings, integers and
booleans (`bool` subclasses `int`); those fingerprint as `str(val)`.
Everything else (including `None`) fingerprints as
`sha1(str(val).encode()).hexdigest()`. -/

/-- Whether the value takes the literal branch of the fingerprint rule. -/
def PyVal.isPrimitive : PyVal → Bool
  | .scalar (.str _) => true
  | .scalar (.int _) => true
  | .scalar (.bool _) => true
  | _ => false

/-- The fingerprint of a value. -/
def fingerprint (v : PyVal) : String :=
  if v.isPrimitive then v.pyStr else sha1Hex v.pyStr

/-! ### `simple_dict.py`: `deep_get`, `deep_set`, `deep_pop`

The Python functions mutate nested containers in place and report errors
by raising; here they return the updated root (or an error).  Paths are
split on the separator exactly as `key.split(separator)` does. -/

/-- Python exceptions raised by the embedded code, carrying the offending
key or handle. -/
inductive PyErr where
  | keyError (key : String)
  | indexError (key : String)
  | attributeError (name : String)
  | assertionError (what : String)
  | ioError (what : String)
  deriving DecidableEq, Repr

/-- Python `str.isdigit()` (ASCII digits). -/
def isDigitStr (s : String) : Bool :=
  !s.data.isEmpty && s.data.all (fun c => '0' ≤ c && c ≤ '9')

/-- Does the first list start with the second? -/
def startsWithL : List Char → List Char → Bool
  | _, [] => true
  | [], _ :: _ => false
  | c :: cs, d :: ds => c = d && startsWithL cs ds

/-- Python `str.split(sep)` scan (fuel-structural; `fuel ≥ length`
suffices): splits at each left-most occurrence of the (non-empty)
separator. -/
def pySplitAux (sep : List Char) : Nat → List Char → List Char →
    List (List Char)
  | _, [], cur => [cur.reverse]
  | 0, s, cur => [cur.reverse ++ s]
  | fuel + 1, c :: cs, cur =>
    if startsWithL (c :: cs) sep then
      cur.reverse :: pySplitAux sep fuel (List.drop (sep.length - 1) cs) []
    else pySplitAux sep fuel cs (c :: cur)

/-- Python `key.split(separator)`. -/
def pySplit (s sep : String) : List String :=
  (pySplitAux sep.data s.data.length s.data []).map List.asString

/-- Python `int()` on a digit string. -/
def parseNat (s : String) : Nat :=
  s.data.foldl (fun acc c => acc * 10 + (c.toNat - 48)) 0

/-- A container (dict or list) in the `isinstance(x, (dict, list))` sense. -/
def PyVal.isContainer : PyVal → Bool
  | .dict _ => true
  | .list _ => true
  | _ => false

/-- Whether the value is a dict. -/
def PyVal.isDict : PyVal → Bool
  | .dict _ => true
  | _ => false

/-- `deep_get` navigation over split path segments; `none` when a segment
does not resolve (the caller raises or substitutes the default). -/
def deepGetSegs : PyVal → List String → Option PyVal
  | v, [] => some v
  | .dict o, k :: rest =>
    match o.get k with
    | some v => deepGetSegs v rest
    | none => none
  | .list a, k :: rest =>
    if isDigitStr k && parseNat k < a.length then
      match a.get (parseNat k) with
      | some v => deepGetSegs v rest
      | none => none
    else none
  | _, _ => none

/-- `deep_get(dct, key, separator, default=None)`-style access: `none`
stands for the missing case. -/
def deep_get (d : PyVal) (key : String) (sep : String := "/") : Option PyVal :=
  deepGetSegs d (pySplit key sep)

/-- The fresh intermediate container `deep_set` creates for a missing
segment: a list for a digit segment, a dict otherwise. -/
def freshContainer (k : String) : PyVal :=
  if isDigitStr k then .list .nil else .dict .nil

/-- `deep_set` over split path segments, returning the updated root.
Mirrors the source exactly: missing or non-container dict entries are
replaced by a fresh container chosen by `k.isdigit()`; list elements
traversed mid-path must be in range and are coerced to dicts; the final
segment writes into a dict directly or into a list at an existing index. -/
def deepSetSegs (d : PyVal) : List String → PyVal → Except PyErr PyVal
  | [], _ => .error (.keyError "")
  | [last], v =>
    match d with
    | .dict o => .ok (.dict (o.set last v))
    | .list a =>
      if isDigitStr last then
        if parseNat last < a.length then .ok (.list (a.set (parseNat last) v))
        else .error (.indexError last)
      else .error (.keyError last)
    | _ => .error (.keyError last)
  | k :: k2 :: rest, v =>
    match d with
    | .dict o =>
      let child :=
        match o.get k with
        | some c => if c.isContainer then c else freshContainer k
        | none => freshContainer k
      match deepSetSegs child (k2 :: rest) v with
      | .ok c' => .ok (.dict (o.set k c'))
      | .error e => .error e
    | .list a =>
      if isDigitStr k then
        let i := parseNat k
        if i < a.length then
          let child :=
            match a.get i with
            | some c => if c.isDict then c else .dict .nil
            | none => .dict .nil
          match deepSetSegs child (k2 :: rest) v with
          | .ok c' => .ok (.list (a.set i c'))
          | .error e => .error e
        else .error (.indexError k)
      else .error (.keyError k)
    | _ => .error (.keyError k)

/-- `deep_set(dct, key, value, separator)`. -/
def deep_set (d : PyVal) (key : String) (v : PyVal) (sep : String := "/") :
    Except PyErr PyVal :=
  deepSetSegs d (pySplit key sep) v

/-- `deep_pop` over split path segments: returns the popped value (if
found) and the updated root; a miss leaves the root unchanged (the
caller raises or substitutes its default). -/
def deepPopSegs (d : PyVal) : List String → Option PyVal × PyVal
  | [] => (none, d)
  | [last] =>
    match d with
    | .dict o =>
      if o.hasKey last then
        let (r, o') := o.pop last
        (r, .dict o')
      else (none, d)
    | .list a =>
      if isDigitStr last && parseNat last < a.length then
        let (r, a') := a.pop (parseNat last)
        (r, .list a')
      else (none, d)
    | _ => (none, d)
  | k :: k2 :: rest =>
    match d with
    | .dict o =>
      match o.get k with
      | some c =>
        let (r, c') := deepPopSegs c (k2 :: rest)
        (r, .dict (o.set k c'))
      | none => (none, d)
    | .list a =>
      if isDigitStr k && parseNat k < a.length then
        match a.get (parseNat k) with
        | some c =>
          let (r, c') := deepPopSegs c (k2 :: rest)
          (r, .list (a.set (parseNat k) c'))
        | none => (none, d)
      else (none, d)
    | _ => (none, d)

/-- `deep_pop(dct, key, separator, default=None)`: popped value (if any)
and updated root. -/
def deep_pop (d : PyVal) (key : String) (sep : String := "/") :
    Option PyVal × PyVal :=
  deepPopSegs d (pySplit key sep)

/-! ### `dict_patterns.py`: `extract_nested_keys`

Yields one delimited path per leaf (non-dict, non-list value), in
document order, pairing it with the leaf value (as `iter_nested_keys`
with `iter_type="both"` does). -/

/-- `f"{current}{separator}{k}" if current else k`. -/
def joinKey (cur sep k : String) : String :=
  if cur = "" then k else cur ++ sep ++ k

mutual
/-- Leaf `(path, value)` pairs under a value at prefix `cur`. -/
def leavesVal : PyVal → String → String → List (String × PyVal)
  | .dict o, sep, cur => leavesObj o sep cur
  | .list a, sep, cur => leavesArr a sep 0 cur
  | v, _, cur => [(cur, v)]

/-- Leaf pairs of a dict (`_extract_dict`). -/
def leavesObj : PyObj → String → String → List (String × PyVal)
  | .nil, _, _ => []
  | .cons k v rest, sep, cur =>
    leavesVal v sep (joinKey cur sep k) ++ leavesObj rest sep cur

/-- Leaf pairs of a list (`_extract_list`), indexed from `i`. -/
def leavesArr : PyArr → String → Nat → String → List (String × PyVal)
  | .nil, _, _, _ => []
  | .cons v rest, sep, i, cur =>
    leavesVal v sep (joinKey cur sep (strOfNat i)) ++ leavesArr rest sep (i + 1) cur
end

/-- `extract_nested_keys(dct, separator)`: the leaf-path list of a
document (containers only; the engine never passes scalars). -/
def extract_nested_keys (d : PyVal) (sep : String := "/") : List String :=
  (leavesVal d sep "").map Prod.fst

/-- Python `set(xs) == set(ys)` on path lists. -/
def setEqL (xs ys : List String) : Bool :=
  xs.all (fun x => ys.contains x) && ys.all (fun y => xs.contains y)

/-! ### `diffdict.py`: the Tracked Store

`DiffDict` state.  Python mutates `self` in place; operations here return
the updated state, paired with the raised exception when the source
raises.  The pluggable `hashFunc` is fixed to its default `sha1`; the
callback list is modelled by its length (`nCallbacks`), observers whose
invocations are counted in `fired`; `datetime.now()` is modelled by the
monotone counter `clock`. -/

structure DiffSet where
  key : String
  stamp : Option Nat
  previous : Option String
  new : Option String
  deriving DecidableEq, Repr

structure DiffDict where
  data : PyVal
  changes : List DiffSet
  keysums : List (String × String)
  doStamp : Bool
  useHexCheck : Bool
  separator : String
  nCallbacks : Nat
  fired : Nat
  clock : Nat
  deriving DecidableEq, Repr

/-- `keysums[key] = h`: in-place update, appending when absent. -/
def ksSet : List (String × String) → String → String → List (String × String)
  | [], k, h => [(k, h)]
  | (k0, h0) :: rest, k, h =>
    if k0 = k then (k0, h) :: rest else (k0, h0) :: ksSet rest k h

/-- `keysums.pop(key, None)`. -/
def ksPop (ks : List (String × String)) (k : String) : List (String × String) :=
  ks.filter (fun p => p.1 ≠ k)

/-- `DiffDict(data=...)`: a fresh store over the given document. -/
def DiffDict.ofData (data : PyVal) (sep : String := "/") (stamp : Bool := true) :
    DiffDict :=
  { data := data, changes := [], keysums := [], doStamp := stamp,
    useHexCheck := false, separator := sep, nCallbacks := 0, fired := 0,
    clock := 0 }

/-- `DiffDict.__compare(key, val1, val2, hash1, hash2, callback)`:
`none` in `val1`/`val2`/`hash1`/`hash2` is the `_doesNotExist` sentinel.
Returns whether a change was recorded, and the updated store. -/
def DiffDict.compare (dd : DiffDict) (key : String) (val1 val2 : Option PyVal)
    (hash1 : Option String := none) (hash2 : Option String := none)
    (callback : Bool := true) : Bool × DiffDict :=
  let hash1 :=
    match List.lookup key dd.keysums with
    | some h => some h
    | none => hash1
  let hash1 :=
    match val1, hash1 with
    | some v, none => some (fingerprint v)
    | _, h => h
  let hash2 :=
    match val2, hash2 with
    | some v, none => some (fingerprint v)
    | _, h => h
  if hash1.isSome && hash2.isSome && hash1 == hash2 then (false, dd)
  else
    let keysums :=
      if hash1.isSome && val2.isNone then ksPop dd.keysums key
      else
        match hash2 with
        | some h => ksSet dd.keysums key h
        | none => dd.keysums
    let entry : DiffSet :=
      { key := key, stamp := if dd.doStamp then some dd.clock else none,
        previous := hash1, new := hash2 }
    let fired :=
      if callback && dd.nCallbacks > 0 then dd.fired + dd.nCallbacks
      else dd.fired
    (true, { dd with keysums := keysums, changes := dd.changes ++ [entry],
                     fired := fired, clock := dd.clock + 1 })

/-- Flat `self.__data.get(key)` (top-level dict lookup by the whole key). -/
def PyVal.topGet : PyVal → String → Option PyVal
  | .dict o, k => o.get k
  | _, _ => none

/-- `DiffDict.__setitem__`: no-op when the (flat) previous value compares
`==` to the new one; otherwise records via `__compare` and writes via
`deep_set` (whose exception, if any, is returned alongside the state the
source leaves behind). -/
def DiffDict.setItem (dd : DiffDict) (key : String) (v : PyVal) :
    DiffDict × Option PyErr :=
  let previousVal := dd.data.topGet key
  if !dd.useHexCheck &&
      (match previousVal with
       | some p => p.pyEq v
       | none => false) then (dd, none)
  else
    match dd.compare key previousVal (some v) with
    | (true, dd') =>
      match deep_set dd'.data key v dd'.separator with
      | .ok data' => ({ dd' with data := data' }, none)
      | .error e => (dd', some e)
    | (false, dd') => (dd', none)

/-- `DiffDict.pop(key)` (no default): records a deletion and removes the
value, or raises `KeyError`. -/
def DiffDict.popKey (dd : DiffDict) (key : String) :
    Option PyVal × DiffDict × Option PyErr :=
  match deep_get dd.data key dd.separator with
  | none => (none, dd, some (.keyError key))
  | some previousVal =>
    let (_, dd') := dd.compare key (some previousVal) none
    let (_, data') := deep_pop dd'.data key dd'.separator
    (some previousVal, { dd' with data := data' }, none)

/-- `DiffDict.__delitem__`. -/
def DiffDict.delItem (dd : DiffDict) (key : String) : DiffDict × Option PyErr :=
  let (_, dd', e) := dd.popKey key
  (dd', e)

/-- `DiffDict.__getitem__`. -/
def DiffDict.getItem (dd : DiffDict) (key : String) : Except PyErr PyVal :=
  match deep_get dd.data key dd.separator with
  | none => .error (.keyError key)
  | some v => .ok v

/-- `DiffDict.__contains__`. -/
def DiffDict.containsKey (dd : DiffDict) (key : String) : Bool :=
  (deep_get dd.data key dd.separator).isSome

/-- `DiffDict.updateAtKey`: forces a re-fingerprint of the value at `key`
against the cached hash. -/
def DiffDict.updateAtKey (dd : DiffDict) (key : String) :
    DiffDict × Option PyErr :=
  match deep_get dd.data key dd.separator with
  | none => (dd, some (.keyError key))
  | some current_value =>
    let old_hash := List.lookup key dd.keysums
    let (_, dd') := dd.compare key (some current_value) (some current_value)
      old_hash
    (dd', none)

/-- The result record of `DiffDict.update_all`. -/
structure UpdateAllResult where
  changed : List String
  new_tracked : List String
  orphaned : List String
  deriving DecidableEq, Repr

/-- One iteration of `update_all`'s first loop (`for key in
tracked_keys`): re-check the key, collecting it as changed when a record
was appended, or as orphaned (and untracked) when `updateAtKey` raised
`KeyError`. -/
def updAllStep (acc : List String × List String × DiffDict) (key : String) :
    List String × List String × DiffDict :=
  let before := acc.2.2.changes.length
  match acc.2.2.updateAtKey key with
  | (st', none) =>
    if st'.changes.length > before then (acc.1 ++ [key], acc.2.1, st')
    else (acc.1, acc.2.1, st')
  | (_, some _) =>
    (acc.1, acc.2.1 ++ [key],
     { acc.2.2 with keysums := ksPop acc.2.2.keysums key })

/-- The first loop of `update_all`: checks every tracked key, collecting
externally changed keys and untracking orphaned ones. -/
def DiffDict.updateAllTracked (dd : DiffDict) (tracked : List String) :
    List String × List String × DiffDict :=
  tracked.foldl updAllStep ([], [], dd)

/-- One iteration of `update_all`'s second loop (`for key in new_keys`):
start tracking the key by recording a fresh assignment. -/
def trackNewStep (acc : List String × DiffDict) (key : String) :
    List String × DiffDict :=
  match acc.2.data.topGet key with
  | some value =>
    let (_, st') := acc.2.compare key none (some value)
    (acc.1 ++ [key], st')
  | none => acc

/-- Top-level keys of the data (`self.__data.keys()`). -/
def PyVal.topKeys : PyVal → List String
  | .dict o => o.keys
  | _ => []

/-- `DiffDict.update_all(include_new_keys)`: re-checks every tracked key
(recording external changes, untracking orphans) and, when asked, starts
tracking top-level data keys that are not yet tracked.  The `new_keys`
set is traversed in data insertion order. -/
def DiffDict.update_all (dd : DiffDict) (include_new_keys : Bool := false) :
    UpdateAllResult × DiffDict :=
  let tracked_keys := dd.keysums.map Prod.fst
  let r1 := dd.updateAllTracked tracked_keys
  if include_new_keys then
    let tracked_set := r1.2.2.keysums.map Prod.fst
    let new_keys := r1.2.2.data.topKeys.filter (fun k => !tracked_set.contains k)
    let r2 := new_keys.foldl trackNewStep ([], r1.2.2)
    ({ changed := r1.1, new_tracked := r2.1, orphaned := r1.2.1 }, r2.2)
  else
    ({ changed := r1.1, new_tracked := [], orphaned := r1.2.1 }, r1.2.2)

/-- `DiffDict.prune_changes(keep)`. -/
def DiffDict.prune_changes (dd : DiffDict) (keep : Int := 256) : DiffDict :=
  if keep ≤ 0 then { dd with changes := [] }
  else { dd with changes := dd.changes.drop (dd.changes.length - keep.toNat) }

/-- `DiffDict.add_callback`. -/
def DiffDict.add_callback (dd : DiffDict) : DiffDict :=
  { dd with nCallbacks := dd.nCallbacks + 1 }

/-- `DiffDict.__len__`. -/
def DiffDict.lenTop (dd : DiffDict) : Nat :=
  dd.data.topKeys.length

/-! ### `syncdict.py`: the Synchronization Engine

File I/O (the `read_json`/`write_json` collaborator behind the
`SyncDictMeta._getCacheFile` cache, and `os.path.exists`) is abstracted
by an environment: `read` is the outcome of loading a handle at that
moment, `writeOk` whether persisting it succeeds.  Handles are taken to
be already-absolute paths (`os.path.abspath` is the identity on them). -/

structure FileEnv where
  pathExists : String → Bool
  read : String → Except PyErr PyVal
  writeOk : String → Bool

/-- The attributes the `DiffDict` class body and `DiffDict.__init__`
actually define (methods, properties, and name-mangled instance slots);
Python resolves `self.__diffdict.update_keysums` against these. -/
def DiffDict.attrNames : List String :=
  ["dataref", "__init__", "prune_changes", "add_callback", "changes",
   "useHexCheck", "_DiffDict__compare", "updateAtKey", "update_all",
   "update_all_simple", "__setitem__", "pop", "__getitem__",
   "__contains__", "__delitem__", "__len__", "_DiffDict__data",
   "_DiffDict__changes", "_DiffDict__keysums", "_DiffDict__hashFunc",
   "_DiffDict__DoStamp", "_DiffDict__useHexCheck", "_DiffDict__separator",
   "_DiffDict__callbacks"]

/-- Modelled from the spec: `DiffDict.update_keysums` is called by
`SyncDict.__init__` and `SyncDict.monitor` but is defined nowhere in the
repository.  Per the spec, `monitor()` "takes a fresh snapshot
`current = {path -> fingerprint}` of the base document": the leaf-path →
fingerprint map of the data, in document order. -/
def DiffDict.update_keysums (dd : DiffDict) : List (String × String) :=
  (leavesVal dd.data dd.separator "").map (fun p => (p.1, fingerprint p.2))

/-- Attribute lookup for `self.__diffdict.update_keysums()` as the source
actually executes it: an `AttributeError` unless `DiffDict` defines the
method. -/
def DiffDict.callUpdateKeysums (dd : DiffDict) :
    Except PyErr (List (String × String)) :=
  if DiffDict.attrNames.contains "update_keysums" then
    .ok (DiffDict.update_keysums dd)
  else .error (.attributeError "update_keysums")

/-- `SyncDict` engine state.  `moves` is `none` until `monitor()` has run
(the `hasattr(self, '_SyncDict__moves')` guard); afterwards it carries
`(__moves, __true_additions, __true_removals)`. -/
structure SyncDict where
  path : String
  separator : String
  desynced_list : List String
  watch_list : List String
  diffdict : DiffDict
  baseline_keysums : List (String × String)
  moves : Option (List (String × String) × List String × List String)
  deriving Repr

/-- `SyncDict.__init__` exactly as the source executes it: existence
assertion, load, `DiffDict` construction, then the
`self.__diffdict.update_keysums()` attribute access. -/
def SyncDict.initRun (env : FileEnv) (path : String) (sep : String := "/") :
    Except PyErr SyncDict :=
  if !env.pathExists path then .error (.assertionError path)
  else
    match env.read path with
    | .error e => .error e
    | .ok base_data =>
      let dd := DiffDict.ofData base_data sep
      match dd.callUpdateKeysums with
      | .error e => .error e
      | .ok baseline =>
        .ok { path := path, separator := sep, desynced_list := [],
              watch_list := [], diffdict := dd, baseline_keysums := baseline,
              moves := none }

/-- The engine state `__init__` was written to produce (used to settle the
claims about the other operations; reaching it in Python would need
`update_keysums` to exist, cf. the spec-modelled definition above). -/
def SyncDict.init0 (base_data : PyVal) (path : String) (sep : String := "/") :
    SyncDict :=
  let dd := DiffDict.ofData base_data sep
  { path := path, separator := sep, desynced_list := [], watch_list := [],
    diffdict := dd, baseline_keysums := dd.update_keysums, moves := none }

/-- `SyncDict.add_watch(path)`: no-op for an already-watched or base
handle; otherwise loads the document and admits it to `watched` or
`desynced` by leaf-path-set comparison with the base. -/
def SyncDict.add_watch (env : FileEnv) (s : SyncDict) (p : String) :
    SyncDict × Option PyErr :=
  if !env.pathExists p then (s, some (.assertionError p))
  else if s.watch_list.contains p || p = s.path then (s, none)
  else
    match env.read p with
    | .error e => (s, some e)
    | .ok watched_data =>
      let watched_keys := extract_nested_keys watched_data s.separator
      let base_keys := extract_nested_keys s.diffdict.data s.separator
      if !setEqL base_keys watched_keys then
        ({ s with desynced_list := s.desynced_list ++ [p] }, none)
      else
        ({ s with watch_list := s.watch_list ++ [p] }, none)

/-- The reverse lookup `{checksum: key for key, checksum in
current_keysums.items()}[c]`: a dict comprehension keeps the last key
with each checksum. -/
def revLookup (current : List (String × String)) (c : String) : Option String :=
  (List.lookup c (current.reverse.map (fun p => (p.2, p.1))))

/-- The working state of `monitor`'s move-detection loop. -/
structure MonitorState where
  moves : List (String × String)
  remaining_added : List String
  remaining_removed : List String
  deriving DecidableEq, Repr

/-- One iteration of `for removed_key in removed_keys` in `monitor`. -/
def monitorStep (baseline current : List (String × String))
    (st : MonitorState) (removed_key : String) : MonitorState :=
  match List.lookup removed_key baseline with
  | none => st
  | some removed_checksum =>
    match revLookup current removed_checksum with
    | some added_key =>
      if st.remaining_added.contains added_key then
        { moves := st.moves ++ [(removed_key, added_key)],
          remaining_added := st.remaining_added.erase added_key,
          remaining_removed := st.remaining_removed.erase removed_key }
      else st
    | none => st

/-- The diff classification at the heart of `monitor()`, iterating the
removed keys in the order `remOrder` (Python iterates a `set`, in an
arbitrary but fixed order). -/
def monitorCore (baseline current : List (String × String))
    (remOrder : List String) : MonitorState :=
  let baseline_keys := baseline.map Prod.fst
  let current_keys := current.map Prod.fst
  let added_keys := current_keys.filter (fun k => !baseline_keys.contains k)
  let removed_keys := baseline_keys.filter (fun k => !current_keys.contains k)
  remOrder.foldl (monitorStep baseline current)
    { moves := [], remaining_added := added_keys,
      remaining_removed := removed_keys }

/-- The added-key set (`keys(current) - keys(baseline)`) in current
insertion order. -/
def addedOrder (baseline current : List (String × String)) : List String :=
  (current.map Prod.fst).filter
    (fun k => !(baseline.map Prod.fst).contains k)

/-- The removed-key set in baseline insertion order (the order this
embedding feeds to `monitorCore`). -/
def removedOrder (baseline current : List (String × String)) : List String :=
  (baseline.map Prod.fst).filter
    (fun k => !(current.map Prod.fst).contains k)

/-- `SyncDict.monitor()` (via the spec-modelled `update_keysums`):
classifies the structural diff against the baseline and replaces the
baseline with the fresh snapshot. -/
def SyncDict.monitor (s : SyncDict) : SyncDict :=
  let current := s.diffdict.update_keysums
  let st := monitorCore s.baseline_keysums current
    (removedOrder s.baseline_keysums current)
  { s with
    moves := some (st.moves, st.remaining_added, st.remaining_removed),
    baseline_keysums := current }

/-- `SyncDict._cleanup_empty_containers`: recursively removes dict
entries whose value is (or becomes) an empty dict; lists are not
descended into. -/
def cleanupObj : PyObj → PyObj
  | .nil => .nil
  | .cons k v rest =>
    match v with
    | .dict o =>
      let o' := cleanupObj o
      match o' with
      | .nil => cleanupObj rest
      | _ => .cons k (.dict o') (cleanupObj rest)
    | _ => .cons k v (cleanupObj rest)

/-- `_cleanup_empty_containers` applied to a document root (non-dict
roots are left alone, and the root itself is never removed). -/
def cleanupDoc : PyVal → PyVal
  | .dict o => .dict (cleanupObj o)
  | v => v

/-- The Python `is None` test after a `deep_get(..., default=None)`:
both a miss and a stored `None` are `None`. -/
def notNone : Option PyVal → Option PyVal
  | some v => if v = .scalar .pynone then none else some v
  | none => none

/-- The per-handle body of `applyChanges` (the code inside the `try`):
load, replay moves against the document's own values, seed true
additions from the base, drop true removals, prune empty containers,
persist.  Any step's exception escapes to the caller's handler. -/
def processWatch (env : FileEnv) (base : PyVal) (sep : String)
    (mv : List (String × String)) (adds rems : List String) (h : String) :
    Except PyErr PyVal := do
  let watched_data ← env.read h
  let original_data := watched_data
  let watched_data ← mv.foldlM
    (fun wd (p : String × String) => do
      let (removed_key, added_key) := p
      match notNone (deep_get original_data removed_key sep) with
      | none => pure wd
      | some translated_value => do
        let wd ← deep_set wd added_key translated_value sep
        pure (deep_pop wd removed_key sep).2)
    watched_data
  let watched_data ← adds.foldlM
    (fun wd added_key => do
      match notNone (deep_get original_data added_key sep) with
      | some _ => pure wd
      | none =>
        match deep_get base added_key sep with
        | none => throw (.keyError added_key)
        | some base_value => deep_set wd added_key base_value sep)
    watched_data
  let watched_data := rems.foldl
    (fun wd removed_key => (deep_pop wd removed_key sep).2) watched_data
  let watched_data := cleanupDoc watched_data
  if env.writeOk h then pure watched_data else throw (.ioError h)

/-- One iteration of `applyChanges`'s `for watch_path in
self.__watch_list[:]` loop: on success the write is logged, on any
exception the handle moves from `watched` to `desynced`. -/
def applyStep (env : FileEnv) (base : PyVal) (sep : String)
    (mv : List (String × String)) (adds rems : List String)
    (acc : SyncDict × List (String × PyVal)) (h : String) :
    SyncDict × List (String × PyVal) :=
  match processWatch env base sep mv adds rems h with
  | .ok doc => (acc.1, acc.2 ++ [(h, doc)])
  | .error _ =>
    ({ acc.1 with
       watch_list := acc.1.watch_list.erase h,
       desynced_list :=
         if acc.1.desynced_list.contains h then acc.1.desynced_list
         else acc.1.desynced_list ++ [h] }, acc.2)

/-- `SyncDict.applyChanges()`: processes every watched handle, catching
each handle's exception by moving it from `watched` to `desynced`.
Also returns the log of successful `write_json` calls. -/
def SyncDict.applyChanges (env : FileEnv) (s : SyncDict) :
    SyncDict × List (String × PyVal) :=
  match s.moves with
  | none => (s, [])
  | some (mv, adds, rems) =>
    s.watch_list.foldl (applyStep env s.diffdict.data s.separator mv adds rems)
      (s, [])

/-- `SyncDict.__setitem__` (delegates to the tracked store). -/
def SyncDict.setItem (s : SyncDict) (key : String) (v : PyVal) :
    SyncDict × Option PyErr :=
  let (dd', e) := s.diffdict.setItem key v
  ({ s with diffdict := dd' }, e)

/-- `SyncDict.__delitem__` (delegates to the tracked store). -/
def SyncDict.delItem (s : SyncDict) (key : String) : SyncDict × Option PyErr :=
  let (dd', e) := s.diffdict.delItem key
  ({ s with diffdict := dd' }, e)

/-- One engine operation, with the I/O environment it runs against. -/
inductive SyncOp where
  | addWatch (env : FileEnv) (p : String)
  | applyChanges (env : FileEnv)
  | monitor
  | setBase (k : String) (v : PyVal)
  | delBase (k : String)

/-- Executes one operation (exceptions and results discarded; they do not
affect the engine state beyond what the source stores). -/
def SyncDict.step (s : SyncDict) : SyncOp → SyncDict
  | .addWatch env p => (s.add_watch env p).1
  | .applyChanges env => (SyncDict.applyChanges env s).1
  | .monitor => s.monitor
  | .setBase k v => (s.setItem k v).1
  | .delBase k => (s.delItem k).1

/-- Executes a sequence of operations. -/
def SyncDict.run (s : SyncDict) (ops : List SyncOp) : SyncDict :=
  ops.foldl SyncDict.step s

/-! ### Object-identity model of the change ledger

`DiffDict.changes` returns
`MappingProxyType({"all": self.__changes, "last": ...})`: the proxy
itself rejects key assignment, but its `"all"` entry is the very list
object bound to `self.__changes`.  To reason about what an earlier view
observes after later store mutations (and about mutating the view's
list), this refinement keeps the ledger list in an explicit heap of
list objects addressed by reference; the scalar attributes reuse the
plain `DiffDict` transcription. -/

structure Heap where
  cells : List (List DiffSet)
  deriving DecidableEq, Repr

/-- Dereferences a list object. -/
def Heap.read (hp : Heap) (r : Nat) : List DiffSet :=
  (hp.cells.get? r).getD []

/-- In-place mutation of a list object. -/
def Heap.write (hp : Heap) (r : Nat) (l : List DiffSet) : Heap :=
  ⟨hp.cells.set r l⟩

/-- Allocates a fresh list object. -/
def Heap.alloc (hp : Heap) (l : List DiffSet) : Nat × Heap :=
  (hp.cells.length, ⟨hp.cells ++ [l]⟩)

/-- A `DiffDict` whose `self.__changes` is the heap cell `changesRef`;
`store.changes` mirrors that cell's current contents. -/
structure DiffDictH where
  store : DiffDict
  changesRef : Nat
  heap : Heap
  deriving Repr

/-- `DiffDict(data=...)` in the heap model: allocates the empty ledger
list. -/
def DiffDictH.ofData (data : PyVal) (sep : String := "/") : DiffDictH :=
  let (r, hp) := Heap.alloc ⟨[]⟩ []
  { store := DiffDict.ofData data sep, changesRef := r, heap := hp }

/-- `__setitem__` in the heap model: the appends the plain transcription
performs on `changes` happen in place on the referenced list object. -/
def DiffDictH.setItem (dd : DiffDictH) (key : String) (v : PyVal) :
    DiffDictH × Option PyErr :=
  let (st', e) := dd.store.setItem key v
  ({ dd with store := st', heap := dd.heap.write dd.changesRef st'.changes }, e)

/-- `prune_changes` in the heap model: `self.__changes = ...` rebinds the
attribute to a freshly allocated list object; earlier views keep the old
one. -/
def DiffDictH.prune_changes (dd : DiffDictH) (keep : Int := 256) : DiffDictH :=
  let st' := dd.store.prune_changes keep
  let (r, hp) := dd.heap.alloc st'.changes
  { store := st', changesRef := r, heap := hp }

/-- What `changes` returns: a read-only proxy whose `"all"` entry is a
reference to the ledger list object and whose `"last"` entry is the
last record at call time (or `None`). -/
structure ChangesView where
  allRef : Nat
  last : Option DiffSet
  deriving DecidableEq, Repr

/-- The `changes` property. -/
def DiffDictH.changes (dd : DiffDictH) : ChangesView :=
  { allRef := dd.changesRef, last := (dd.heap.read dd.changesRef).getLast? }

/-- Reading `view["all"]` at a later time dereferences the captured list
object in the current heap. -/
def ChangesView.allNow (v : ChangesView) (hp : Heap) : List DiffSet :=
  hp.read v.allRef

/-- `view["all"].append(e)`: the list inside the proxy is an ordinary
mutable list; appending to it succeeds and mutates the shared object. -/
def ChangesView.appendNow (v : ChangesView) (hp : Heap) (e : DiffSet) : Heap :=
  hp.write v.allRef (hp.read v.allRef ++ [e])

/-! ### Convenience constructors for concrete documents -/

/-- A document node from an association list. -/
def mkD (l : List (String × PyVal)) : PyVal := .dict (PyObj.ofList l)

/-- An integer leaf. -/
def mkI (n : Int) : PyVal := .scalar (.int n)

/-- A string leaf. -/
def mkS (s : String) : PyVal := .scalar (.str s)

/-! ### Auxiliary predicates and fixtures used by the theorems -/

mutual
/-- A document whose containers are mappings only (no sequences). -/
def PyVal.mappingOnly : PyVal → Bool
  | .scalar _ => true
  | .dict o => o.mappingOnly
  | .list _ => false

/-- All values of the dict are mapping-only. -/
def PyObj.mappingOnly : PyObj → Bool
  | .nil => true
  | .cons _ v rest => v.mappingOnly && rest.mappingOnly
end

/-- The invariant of `monitor`'s move-detection loop, over the added and
removed key sets of a diff. -/
structure MonInv (addedSet removedSet : List String) (st : MonitorState) :
    Prop where
  ra_nodup : st.remaining_added.Nodup
  rr_nodup : st.remaining_removed.Nodup
  ms_nodup : (st.moves.map Prod.fst).Nodup
  mt_nodup : (st.moves.map Prod.snd).Nodup
  ra_sub : ∀ k ∈ st.remaining_added, k ∈ addedSet
  rr_sub : ∀ k ∈ st.remaining_removed, k ∈ removedSet
  mt_sub : ∀ k ∈ st.moves.map Prod.snd, k ∈ addedSet
  ms_sub : ∀ k ∈ st.moves.map Prod.fst, k ∈ removedSet
  added_iff : ∀ k ∈ addedSet, (k ∈ st.remaining_added ↔ k ∉ st.moves.map Prod.snd)
  removed_iff : ∀ k ∈ removedSet, (k ∈ st.remaining_removed ↔ k ∉ st.moves.map Prod.fst)

/-- File environment for the `C2` witness: the base file exists and parses. -/
def envC2 : FileEnv :=
  { pathExists := fun _ => true,
    read := fun _ => .ok (mkD [("a", mkI 1)]),
    writeOk := fun _ => true }

/-- File environment for the `C3` scenarios: handle `h` holds `y: 2`. -/
def envC3 : FileEnv :=
  { pathExists := fun _ => true,
    read := fun p => if p = "h" then .ok (mkD [("y", mkI 2)]) else .error (.ioError p),
    writeOk := fun _ => true }

/-- File environment for the `C1` counterexample: the watched document
holds its own value `"V"` at the base leaf path `x`. -/
def envC1x : FileEnv :=
  { pathExists := fun _ => true,
    read := fun p => if p = "w" then .ok (mkD [("x", mkS "V")]) else .error (.ioError p),
    writeOk := fun _ => true }

/-- The watched document of the amended `C1` scenario: its own value `V`
at the base leaf path `a/b`. -/
def wDocC1 (V : Scalar) : PyVal := mkD [("a", mkD [("b", .scalar V)])]

/-- File environment for the amended `C1` scenario. -/
def envC1am (V : Scalar) : FileEnv :=
  { pathExists := fun _ => true,
    read := fun p => if p = "w" then .ok (wDocC1 V) else .error (.ioError p),
    writeOk := fun _ => true }

/-- The engine state of the amended `C1` scenario after the structural
edit: base `{a: {b: X}}`, leaf `a/b` deleted and its content re-created
at `a/c`, with the dependent document admitted to `watched` first. -/
def sC1am (V X : Scalar) : SyncDict :=
  let s0 := SyncDict.init0 (mkD [("a", mkD [("b", .scalar X)])]) "base"
  let s1 := (s0.add_watch (envC1am V) "w").1
  let s2 := (s1.delItem "a/b").1
  (s2.setItem "a/c" (.scalar X)).1

/-- File environment for the `C5` witness: handle `ok` loads a document,
handle `bad` fails to load. -/
def envC5 : FileEnv :=
  { pathExists := fun _ => true,
    read := fun p => if p = "bad" then .error (.ioError p) else .ok (mkD [("x", mkI 1)]),
    writeOk := fun _ => true }

/-- Engine state for the `C5` witness: two watched handles, an empty
diff pending. -/
def sC5 : SyncDict :=
  { SyncDict.init0 (mkD [("x", mkI 1)]) "base" with
    watch_list := ["ok", "bad"], moves := some ([], [], []) }

/-- Tracked store for the `C6` witness: value `1` tracked at `k`. -/
def ddC6w : DiffDict :=
  { DiffDict.ofData (mkD [("k", mkI 1)]) with keysums := [("k", "1")] }

/-- Tracked store for the `C6` and `C9` counterexamples: a nested value
supplied as the initial document, never tracked. -/
def ddNested : DiffDict :=
  DiffDict.ofData (mkD [("a", mkD [("b", mkI 1)])])

/-- Engine state for the `C3` witness: one watched and one desynced
handle. -/
def sC3w : SyncDict :=
  { SyncDict.init0 (mkD [("x", mkI 1)]) "base" with
    watch_list := ["w"], desynced_list := ["d"] }

/-- Engine state for the `C1` counterexample: base leaf `x` deleted and
its content re-created at `x/y` (the old path is a prefix of the new
one), `monitor` already run. -/
def sC1x : SyncDict :=
  let s0 := SyncDict.init0 (mkD [("x", mkI 1)]) "base"
  let s1 := (s0.add_watch envC1x "w").1
  let s2 := (s1.delItem "x").1
  ((s2.setItem "x/y" (mkI 1)).1).monitor

/-- The tracked store `sC1am` reaches (spelled out so the amended `C1`
theorem can reason about the pipeline one stage at a time). -/
def ddC1am (X : Scalar) : DiffDict :=
  { data := mkD [("a", mkD [("c", PyVal.scalar X)])],
    changes := [{ key := "a/b", stamp := some 0,
                  previous := some (fingerprint (PyVal.scalar X)), new := none },
                { key := "a/c", stamp := some 1, previous := none,
                  new := some (fingerprint (PyVal.scalar X)) }],
    keysums := [("a/c", fingerprint (PyVal.scalar X))],
    doStamp := true, useHexCheck := false, separator := "/",
    nCallbacks := 0, fired := 0, clock := 2 }

/-- The engine state `sC1am` reaches, spelled out. -/
def sC1amR (X : Scalar) : SyncDict :=
  { path := "base", separator := "/", desynced_list := [], watch_list := ["w"],
    diffdict := ddC1am X,
    baseline_keysums := [("a/b", fingerprint (PyVal.scalar X))],
    moves := none }

/-- The heap-model store of the `C10` scenario after the first set. -/
def ddC10a : DiffDictH := ((DiffDictH.ofData (mkD [])).setItem "k1" (mkS "v1")).1

/-- The ledger view taken between the two sets of the `C10` scenario. -/
def vC10 : ChangesView := ddC10a.changes

/-- The heap-model store of the `C10` scenario after the second set. -/
def ddC10b : DiffDictH := (ddC10a.setItem "k2" (mkS "v2")).1

/-- A record appended through the `C10` view. -/
def eC10 : DiffSet := { key := "z", stamp := none, previous := none, new := none }

/-! ## Supporting lemmas -/

theorem natDigitsRevAux_val (fuel : Nat) :
    ∀ n, n ≤ fuel → natOfDigitsRev (natDigitsRevAux fuel n) = n := by
  induction fuel with
  | zero =>
    intro n hn
    interval_cases n
    simp [natDigitsRevAux, natOfDigitsRev]
  | succ fuel ih =>
    intro n hn
    match n with
    | 0 => simp [natDigitsRevAux, natOfDigitsRev]
    | m + 1 =>
      have hlt : (m + 1) / 10 < m + 1 := Nat.div_lt_self (Nat.succ_pos m) (by omega)
      have hdiv : (m + 1) / 10 ≤ fuel := by omega
      simp [natDigitsRevAux, natOfDigitsRev, ih _ hdiv]
      omega

theorem natDigitsRev_val (n : Nat) : natOfDigitsRev (natDigitsRev n) = n :=
  natDigitsRevAux_val n n le_rfl

theorem natDigitsRevAux_lt (fuel : Nat) :
    ∀ n d, d ∈ natDigitsRevAux fuel n → d < 10 := by
  induction fuel with
  | zero =>
    intro n d hd
    cases n <;> simp [natDigitsRevAux] at hd
  | succ fuel ih =>
    intro n d hd
    cases n with
    | zero => simp [natDigitsRevAux] at hd
    | succ m =>
      simp [natDigitsRevAux] at hd
      rcases hd with h | h
      · omega
      · exact ih _ _ h

theorem digitChar_injOn {d e : Nat} (hd : d < 10) (he : e < 10)
    (h : digitChar d = digitChar e) : d = e := by
  interval_cases d <;> interval_cases e <;> revert h <;> decide

theorem map_digitChar_inj :
    ∀ l1 l2 : List Nat, (∀ d ∈ l1, d < 10) → (∀ d ∈ l2, d < 10) →
      l1.map digitChar = l2.map digitChar → l1 = l2 := by
  intro l1
  induction l1 with
  | nil =>
    intro l2 _ _ h
    cases l2 <;> simp_all
  | cons d l ih =>
    intro l2 h1 h2 h
    cases l2 with
    | nil => simp_all
    | cons e l2' =>
      simp only [List.map_cons, List.cons.injEq] at h
      obtain ⟨hde, hrest⟩ := h
      have hd := digitChar_injOn (h1 d (by simp)) (h2 e (by simp)) hde
      subst hd
      have := ih l2' (fun x hx => h1 x (by simp [hx]))
        (fun x hx => h2 x (by simp [hx])) hrest
      simp [this]

theorem strOfNat_data {n : Nat} (h : n ≠ 0) :
    (strOfNat n).data = (List.map digitChar (natDigitsRev n)).reverse := by
  simp [strOfNat, h, List.map_reverse]

theorem strOfNat_inj {m n : Nat} (h : strOfNat m = strOfNat n) : m = n := by
  have hdig : ∀ k : Nat, ∀ d ∈ natDigitsRev k, d < 10 :=
    fun k d hd => natDigitsRevAux_lt k k d hd
  have key : ∀ k : Nat, strOfNat k = strOfNat 0 → k = 0 := by
    intro k hk
    by_contra hk0
    have hdat := congrArg String.data hk
    rw [strOfNat_data hk0] at hdat
    have h0 : (strOfNat 0).data = ['0'] := by decide
    rw [h0] at hdat
    have hflip := congrArg List.reverse hdat
    rw [List.reverse_reverse] at hflip
    have h01 : (['0'] : List Char).reverse = ([0] : List Nat).map digitChar := by
      decide
    rw [h01] at hflip
    have hk' := map_digitChar_inj _ _ (hdig k) (by decide) hflip
    have hval := congrArg natOfDigitsRev hk'
    rw [natDigitsRev_val] at hval
    simp [natOfDigitsRev] at hval
    exact hk0 hval
  by_cases hm : m = 0 <;> by_cases hn : n = 0
  · omega
  · subst hm
    exact (key n h.symm).symm
  · subst hn
    exact key m h
  · have hdat := congrArg String.data h
    rw [strOfNat_data hm, strOfNat_data hn] at hdat
    have hrev := List.reverse_injective hdat
    have hdg := map_digitChar_inj _ _ (hdig m) (hdig n) hrev
    have hval := congrArg natOfDigitsRev hdg
    rwa [natDigitsRev_val, natDigitsRev_val] at hval

theorem strOfNat_head_digit (m : Nat) :
    ∀ c, (strOfNat m).data.head? = some c → c ≠ '-' := by
  intro c hc
  by_cases hm : m = 0
  · subst hm
    have : (strOfNat 0).data = ['0'] := by decide
    rw [this] at hc
    simp at hc
    subst hc
    decide
  · rw [strOfNat_data hm] at hc
    rcases hrev : (List.map digitChar (natDigitsRev m)).reverse with _ | ⟨x, xs⟩
    · rw [hrev] at hc
      simp at hc
    · rw [hrev] at hc
      simp at hc
      have hx : x ∈ (List.map digitChar (natDigitsRev m)).reverse := by
        rw [hrev]; simp
      rw [List.mem_reverse, List.mem_map] at hx
      obtain ⟨d, hd, hdx⟩ := hx
      have hd10 : d < 10 := natDigitsRevAux_lt m m d hd
      subst hc
      rw [← hdx]
      interval_cases d <;> decide

theorem strOfNat_ne_neg (a b : Nat) : strOfNat a ≠ "-" ++ strOfNat (b + 1) := by
  intro h
  have hdat := congrArg String.data h
  rw [String.data_append] at hdat
  have hminus : ("-" : String).data = ['-'] := rfl
  rw [hminus] at hdat
  have hhead : (strOfNat a).data.head? = some '-' := by
    rw [hdat]; rfl
  exact strOfNat_head_digit a '-' hhead rfl

theorem strOfInt_inj {m n : Int} (h : strOfInt m = strOfInt n) : m = n := by
  cases m with
  | ofNat a =>
    cases n with
    | ofNat b =>
      simp [strOfInt] at h
      exact congrArg Int.ofNat (strOfNat_inj h)
    | negSucc b =>
      simp [strOfInt] at h
      exact absurd h (strOfNat_ne_neg a b)
  | negSucc a =>
    cases n with
    | ofNat b =>
      simp [strOfInt] at h
      exact absurd h.symm (strOfNat_ne_neg b a)
    | negSucc b =>
      simp [strOfInt] at h
      have hdat := congrArg String.data h
      rw [String.data_append, String.data_append] at hdat
      have hsub : (strOfNat (a + 1)).data = (strOfNat (b + 1)).data :=
        List.append_cancel_left hdat
      have heq : strOfNat (a + 1) = strOfNat (b + 1) := String.ext hsub
      have hab1 := strOfNat_inj heq
      have hab : a = b := by omega
      rw [hab]

theorem hex8_length (n : Nat) : (hex8 n).length = 8 := by
  simp [hex8]

theorem sha1Hex_length (s : String) : (sha1Hex s).length = 40 := by
  simp [sha1Hex, String.length, hex8_length]

/-! ## Claim theorems -/

/-- C7 (counterexample): the integer `1` and the string `"1"` are distinct
primitive values, yet both fingerprint to the literal `"1"` — fingerprints
are not injective across primitive types. -/
theorem C7_counterexample :
    (PyVal.scalar (.int 1) ≠ PyVal.scalar (.str "1")) ∧
    fingerprint (.scalar (.int 1)) = fingerprint (.scalar (.str "1")) := by
  decide

/-- C7 (amended): fingerprinting is a function (stable by definition);
two distinct primitive values of the same primitive type (two strings,
two integers, or two booleans) have different fingerprints; a primitive
fingerprints to its literal textual representation; a non-primitive
fingerprints to the 160-bit (40 hex character) SHA-1 digest of its
textual serialization. -/
theorem C7_fingerprint_amended :
    (∀ a b : String,
      fingerprint (.scalar (.str a)) = fingerprint (.scalar (.str b)) → a = b) ∧
    (∀ m n : Int,
      fingerprint (.scalar (.int m)) = fingerprint (.scalar (.int n)) → m = n) ∧
    (∀ a b : Bool,
      fingerprint (.scalar (.bool a)) = fingerprint (.scalar (.bool b)) → a = b) ∧
    (∀ v : PyVal, v.isPrimitive = true → fingerprint v = v.pyStr) ∧
    (∀ v : PyVal, v.isPrimitive = false →
      fingerprint v = sha1Hex v.pyStr ∧ (fingerprint v).length = 40) := by
  refine ⟨?_, ?_, ?_, ?_, ?_⟩
  · intro a b h
    simpa [fingerprint, PyVal.isPrimitive, PyVal.pyStr, Scalar.pyStr] using h
  · intro m n h
    simp [fingerprint, PyVal.isPrimitive, PyVal.pyStr, Scalar.pyStr] at h
    exact strOfInt_inj h
  · intro a b h
    cases a <;> cases b <;> revert h <;> decide
  · intro v hv
    simp [fingerprint, hv]
  · intro v hv
    constructor
    · simp [fingerprint, hv]
    · simp [fingerprint, hv, sha1Hex_length]

/-- C7 (witness): the amended theorem applied at two equal-fingerprint
integers and a composite value. -/
theorem C7_witness :
    (5 : Int) = 5 ∧ (fingerprint (mkD [("b", mkI 1)])).length = 40 :=
  ⟨C7_fingerprint_amended.2.1 5 5 rfl,
   (C7_fingerprint_amended.2.2.2.2 (mkD [("b", mkI 1)]) (by decide)).2⟩

/-- C2: `SyncDict.__init__` can never return a constructed engine: its
call to `self.__diffdict.update_keysums()` fails because `DiffDict`
defines no such attribute; whenever the existence assertion and the base
file load succeed, the constructor raises exactly `AttributeError`
(so no engine operation beyond the constructor is reachable). -/
theorem C2_init_attribute_error (env : FileEnv) (path sep : String) :
    (∀ s, SyncDict.initRun env path sep ≠ Except.ok s) ∧
    (env.pathExists path = true →
      ∀ d, env.read path = Except.ok d →
        SyncDict.initRun env path sep =
          Except.error (PyErr.attributeError "update_keysums")) := by
  have hattr : ∀ dd : DiffDict,
      dd.callUpdateKeysums = .error (.attributeError "update_keysums") := by
    intro dd
    have hc : "update_keysums" ∉ DiffDict.attrNames := by decide
    simp [DiffDict.callUpdateKeysums, hc]
  constructor
  · intro s hs
    unfold SyncDict.initRun at hs
    cases hex : env.pathExists path with
    | false => simp [hex] at hs
    | true =>
      simp only [hex, Bool.not_true, Bool.false_eq_true, if_false] at hs
      cases hread : env.read path with
      | error e => simp [hread] at hs
      | ok d => simp [hread, hattr] at hs
  · intro hex d hread
    unfold SyncDict.initRun
    simp [hex, hread, hattr]

/-- C2 (witness): at a concrete environment whose base file exists and
parses, construction fails with `AttributeError`. -/
theorem C2_witness :
    SyncDict.initRun envC2 "base" "/" =
      Except.error (PyErr.attributeError "update_keysums") :=
  (C2_init_attribute_error envC2 "base" "/").2 rfl (mkD [("a", mkI 1)]) rfl

/-- C10: the structure returned by the `changes` accessor is not a dead
snapshot and not deeply read-only — its `"all"` entry is the live
internal ledger list: a later `set` is visible through an earlier view,
and appending through the view mutates the store's own ledger.  This
demonstrates the divergence of the code from its own docstring ("The
returned object is a snapshot", "immutable to prevent accidental
modification"). -/
theorem C10_change_view_live :
    (vC10.allNow ddC10a.heap).length = 1 ∧
    (vC10.allNow ddC10b.heap).length = 2 ∧
    ((ddC10b.changes).allNow (vC10.appendNow ddC10b.heap eC10)).length = 3 := by
  decide

/-- C8 (counterexample): `deep_set` into an empty document along
`a/0/b` — whose missing intermediate segment `0` is a non-negative
integer literal — raises instead of storing the value (the created
sequence is empty, so the next segment can never resolve); likewise
`0/1`. -/
theorem C8_counterexample :
    deep_set (mkD []) "a/0/b" (mkI 7) = Except.error (PyErr.keyError "b") ∧
    deep_set (mkD []) "0/1" (mkI 7) = Except.error (PyErr.indexError "1") :=
  ⟨rfl, rfl⟩

theorem PyObj.get_set_self :
    ∀ (o : PyObj) (k : String) (v : PyVal), (o.set k v).get k = some v
  | .nil, k, v => by simp [PyObj.set, PyObj.get]
  | .cons k0 v0 rest, k, v => by
    by_cases h : k0 = k <;>
      simp [PyObj.set, PyObj.get, h, PyObj.get_set_self rest k v]

theorem PyObj.mappingOnly_get :
    ∀ (o : PyObj), o.mappingOnly = true →
      ∀ {k : String} {c : PyVal}, o.get k = some c → c.mappingOnly = true
  | .nil, _, k, c, hc => by simp [PyObj.get] at hc
  | .cons k0 v0 rest, h, k, c, hc => by
    rw [PyObj.mappingOnly] at h
    simp only [Bool.and_eq_true] at h
    rw [PyObj.get] at hc
    by_cases hk : k0 = k
    · simp [hk] at hc
      rw [← hc]
      exact h.1
    · simp [hk] at hc
      exact PyObj.mappingOnly_get rest h.2 hc

theorem deepSet_nil_list_err :
    ∀ (segs : List String) (v : PyVal), segs ≠ [] →
      ∃ e, deepSetSegs (.list .nil) segs v = .error e := by
  intro segs v hne
  match segs with
  | [last] =>
    by_cases h : isDigitStr last = true
    · refine ⟨.indexError last, ?_⟩
      simp [deepSetSegs, h, PyArr.length]
    · refine ⟨.keyError last, ?_⟩
      simp only [Bool.not_eq_true] at h
      simp [deepSetSegs, h]
  | k :: k2 :: rest =>
    by_cases h : isDigitStr k = true
    · refine ⟨.indexError k, ?_⟩
      simp [deepSetSegs, h, PyArr.length]
    · refine ⟨.keyError k, ?_⟩
      simp only [Bool.not_eq_true] at h
      simp [deepSetSegs, h]

theorem deepSet_mappings_ok :
    ∀ (segs : List String) (o : PyObj), o.mappingOnly = true →
      segs ≠ [] → (∀ s ∈ segs, isDigitStr s = false) → ∀ v : PyVal,
      ∃ o', deepSetSegs (.dict o) segs v = .ok (.dict o') ∧
            deepGetSegs (.dict o') segs = some v := by
  intro segs
  induction segs with
  | nil => intro o _ hne _ _; exact absurd rfl hne
  | cons k rest ih =>
    intro o ho _ hnd v
    cases rest with
    | nil =>
      refine ⟨o.set k v, ?_, ?_⟩
      · simp [deepSetSegs]
      · simp [deepGetSegs, PyObj.get_set_self]
    | cons k2 rest2 =>
      -- the child the source navigates into is always a (mapping-only) dict
      have hchild : ∃ co : PyObj, PyObj.mappingOnly co = true ∧
          (match o.get k with
           | some c => if c.isContainer then c else freshContainer k
           | none => freshContainer k) = .dict co := by
        have hfresh : freshContainer k = .dict .nil := by
          simp [freshContainer, hnd k (by simp)]
        cases hc : o.get k with
        | none => exact ⟨.nil, by simp [PyObj.mappingOnly], by simp [hfresh]⟩
        | some c =>
          have hcm := PyObj.mappingOnly_get o ho hc
          cases c with
          | scalar s =>
            exact ⟨.nil, by simp [PyObj.mappingOnly],
              by simp [PyVal.isContainer, hfresh]⟩
          | dict co => exact ⟨co, hcm, by simp [PyVal.isContainer]⟩
          | list a => simp [PyVal.mappingOnly] at hcm
      obtain ⟨co, hcom, hco⟩ := hchild
      obtain ⟨c', hset, hget⟩ := ih co hcom (by simp)
        (fun s hs => hnd s (by simp [hs])) v
      refine ⟨o.set k (.dict c'), ?_, ?_⟩
      · rw [deepSetSegs, hco, hset]
      · rw [deepGetSegs]
        rw [PyObj.get_set_self]
        exact hget

/-- C8 (amended): `deep_set` creates a mapping for every missing
intermediate segment and stores the value at the final segment without
error provided no segment is a non-negative integer literal and the
traversed containers are mappings (the stored value is then readable
back at the path); but when a missing intermediate segment is a
non-negative integer literal, an empty sequence is created and the
write then always fails. -/
theorem C8_deep_set_amended :
    (∀ (segs : List String) (o : PyObj), o.mappingOnly = true →
      segs ≠ [] → (∀ s ∈ segs, isDigitStr s = false) → ∀ v : PyVal,
      ∃ o', deepSetSegs (.dict o) segs v = .ok (.dict o') ∧
            deepGetSegs (.dict o') segs = some v) ∧
    (∀ (o : PyObj) (k : String) (rest : List String) (v : PyVal),
      isDigitStr k = true → o.get k = none → rest ≠ [] →
      ∃ e, deepSetSegs (.dict o) (k :: rest) v = .error e) := by
  constructor
  · exact deepSet_mappings_ok
  · intro o k rest v hk hget hne
    match rest with
    | r :: rs =>
      obtain ⟨e, he⟩ := deepSet_nil_list_err (r :: rs) v (by simp)
      refine ⟨e, ?_⟩
      have hfresh : freshContainer k = .list .nil := by simp [freshContainer, hk]
      rw [deepSetSegs, hget, hfresh, he]

/-- C8 (witness): the amended theorem applied at a two-segment non-digit
path into the empty document, and at a digit-intermediate path. -/
theorem C8_witness :
    (∃ o', deepSetSegs (.dict .nil) ["a", "b"] (mkI 5) = .ok (.dict o') ∧
           deepGetSegs (.dict o') ["a", "b"] = some (mkI 5)) ∧
    (∃ e, deepSetSegs (.dict .nil) ["0", "b"] (mkI 5) = .error e) :=
  ⟨C8_deep_set_amended.1 ["a", "b"] .nil (by decide) (by decide) (by decide) (mkI 5),
   C8_deep_set_amended.2 .nil "0" ["b"] (mkI 5) (by decide) rfl (by decide)⟩

/-- C6 (counterexample): for a store constructed around the initial
document `{a: {b: 1}}`, setting the nested path `a/b` to its current
value `1` (equal value, hence equal fingerprint) appends a ledger entry
— the claim's universal no-op fails for untracked nested paths of the
supplied initial document. -/
theorem C6_counterexample :
    deep_get ddNested.data "a/b" = some (mkI 1) ∧
    ddNested.changes.length = 0 ∧
    (ddNested.setItem "a/b" (mkI 1)).1.changes.length = 1 := by
  decide

/-- C6 (amended): setting `key` to `v` appends no ledger entry, fires no
callback and leaves the store exactly unchanged whenever the store can
see the equality: the path's cached fingerprint equals `v`'s
fingerprint, or the flat top-level lookup finds a value that is `==` to
`v` (with hex-checking off), or finds an untracked value of equal
fingerprint.  (An equal value at an untracked nested path is invisible
to the flat lookup — see the counterexample.) -/
theorem C6_noop_amended (dd : DiffDict) (key : String) (v : PyVal)
    (h : List.lookup key dd.keysums = some (fingerprint v)
       ∨ (∃ cur, dd.data.topGet key = some cur ∧
            ((dd.useHexCheck = false ∧ cur.pyEq v = true)
             ∨ (List.lookup key dd.keysums = none ∧
                fingerprint cur = fingerprint v)))) :
    dd.setItem key v = (dd, none) := by
  rcases h with h1 | ⟨cur, hcur, hcase⟩
  · unfold DiffDict.setItem
    by_cases hif : (!dd.useHexCheck &&
        (match dd.data.topGet key with
         | some p => p.pyEq v
         | none => false)) = true
    · simp [hif]
    · simp only [hif, Bool.false_eq_true, if_false]
      have hcmp : dd.compare key (dd.data.topGet key) (some v) = (false, dd) := by
        unfold DiffDict.compare
        simp [h1]
      rw [hcmp]
  · rcases hcase with ⟨hhex, hpy⟩ | ⟨hlk, hfp⟩
    · unfold DiffDict.setItem
      simp [hcur, hhex, hpy]
    · unfold DiffDict.setItem
      by_cases hif : (!dd.useHexCheck &&
          (match dd.data.topGet key with
           | some p => p.pyEq v
           | none => false)) = true
      · simp [hif]
      · simp only [hif, Bool.false_eq_true, if_false]
        have hcmp : dd.compare key (dd.data.topGet key) (some v) = (false, dd) := by
          unfold DiffDict.compare
          simp [hlk, hcur, hfp]
        rw [hcmp]

/-- C6 (witness): the amended theorem applied at a store whose cache
tracks `k` with fingerprint `"1"`. -/
theorem C6_witness : ddC6w.setItem "k" (mkI 1) = (ddC6w, none) :=
  C6_noop_amended ddC6w "k" (mkI 1) (Or.inl (by decide))

theorem applyStep_desynced_mono (env : FileEnv) (base : PyVal) (sep : String)
    (mv : List (String × String)) (adds rems : List String)
    (acc : SyncDict × List (String × PyVal)) (p : String) (x : String)
    (hx : x ∈ acc.1.desynced_list) :
    x ∈ ((applyStep env base sep mv adds rems acc p).1).desynced_list := by
  unfold applyStep
  cases processWatch env base sep mv adds rems p with
  | ok doc => exact hx
  | error e =>
    simp only
    by_cases hc : p ∈ acc.1.desynced_list <;> simp [hc, hx]

theorem applyFold_desynced_mono (env : FileEnv) (base : PyVal) (sep : String)
    (mv : List (String × String)) (adds rems : List String) :
    ∀ (hs : List String) (acc : SyncDict × List (String × PyVal)) (x : String),
      x ∈ acc.1.desynced_list →
      x ∈ ((hs.foldl (applyStep env base sep mv adds rems) acc).1).desynced_list := by
  intro hs
  induction hs with
  | nil => intro acc x hx; exact hx
  | cons p hs ih =>
    intro acc x hx
    exact ih _ x (applyStep_desynced_mono env base sep mv adds rems acc p x hx)

theorem applyFold_watch_shrink (env : FileEnv) (base : PyVal) (sep : String)
    (mv : List (String × String)) (adds rems : List String) :
    ∀ (hs : List String) (acc : SyncDict × List (String × PyVal)) (x : String),
      x ∈ ((hs.foldl (applyStep env base sep mv adds rems) acc).1).watch_list →
      x ∈ acc.1.watch_list := by
  intro hs
  induction hs with
  | nil => intro acc x hx; exact hx
  | cons p hs ih =>
    intro acc x hx
    have hx1 := ih _ x hx
    revert hx1
    unfold applyStep
    cases processWatch env base sep mv adds rems p with
    | ok doc => exact id
    | error e =>
      intro hx1
      exact List.mem_of_mem_erase hx1

theorem step_desynced_mono (s : SyncDict) (op : SyncOp) (x : String)
    (hx : x ∈ s.desynced_list) : x ∈ (s.step op).desynced_list := by
  cases op with
  | addWatch env p =>
    unfold SyncDict.step SyncDict.add_watch
    by_cases he : env.pathExists p
    · by_cases hw : p ∈ s.watch_list ∨ p = s.path
      · simp [he, hw, hx]
      · simp only [he, Bool.not_true, Bool.false_eq_true, if_false]
        cases env.read p with
        | error e => simp [hx, hw]
        | ok d =>
          by_cases hk : setEqL (extract_nested_keys s.diffdict.data s.separator)
              (extract_nested_keys d s.separator)
          · simp [hk, hx, hw]
          · simp [hk, hx, hw]
    · simp [he, hx]
  | applyChanges env =>
    unfold SyncDict.step SyncDict.applyChanges
    cases hm : s.moves with
    | none => exact hx
    | some t =>
      obtain ⟨mv, adds, rems⟩ := t
      exact applyFold_desynced_mono env s.diffdict.data s.separator mv adds rems
        s.watch_list (s, []) x hx
  | monitor => exact hx
  | setBase k v =>
    unfold SyncDict.step SyncDict.setItem
    exact hx
  | delBase k =>
    unfold SyncDict.step SyncDict.delItem
    exact hx

/-- C3 (counterexample): a handle desynced by `addWatch` (structural
mismatch) re-enters the watched set through a later explicit `addWatch`
once the base structure matches — after which it sits in both sets, so
the one-way/disjointness claim fails. -/
theorem C3_counterexample :
    ("h" ∈ ((SyncDict.init0 (mkD [("x", mkI 1)]) "base").run
        [.addWatch envC3 "h"]).desynced_list) ∧
    ("h" ∈ ((SyncDict.init0 (mkD [("x", mkI 1)]) "base").run
        [.addWatch envC3 "h", .delBase "x", .setBase "y" (mkI 2),
         .addWatch envC3 "h"]).watch_list) ∧
    ("h" ∈ ((SyncDict.init0 (mkD [("x", mkI 1)]) "base").run
        [.addWatch envC3 "h", .delBase "x", .setBase "y" (mkI 2),
         .addWatch envC3 "h"]).desynced_list) := by
  decide

/-- C3 (amended): desynced membership is permanent across every sequence
of engine operations, and `applyChanges` never (re-)admits any handle to
the watched set; `addWatch` on an already-watched or base handle changes
no state.  (An explicit `addWatch` on a desynced handle can, however,
re-admit it to `watched` while it stays desynced — see the
counterexample.) -/
theorem C3_state_machine_amended :
    (∀ (s : SyncDict) (ops : List SyncOp) (x : String),
        x ∈ s.desynced_list → x ∈ (s.run ops).desynced_list) ∧
    (∀ (env : FileEnv) (s : SyncDict) (x : String),
        x ∈ (SyncDict.applyChanges env s).1.watch_list → x ∈ s.watch_list) ∧
    (∀ (env : FileEnv) (s : SyncDict) (p : String),
        p ∈ s.watch_list ∨ p = s.path → (s.add_watch env p).1 = s) := by
  refine ⟨?_, ?_, ?_⟩
  · intro s ops
    induction ops generalizing s with
    | nil => intro x hx; exact hx
    | cons op ops ih =>
      intro x hx
      exact ih (s.step op) x (step_desynced_mono s op x hx)
  · intro env s x hx
    unfold SyncDict.applyChanges at hx
    cases hm : s.moves with
    | none => rw [hm] at hx; exact hx
    | some t =>
      obtain ⟨mv, adds, rems⟩ := t
      rw [hm] at hx
      exact applyFold_watch_shrink env s.diffdict.data s.separator mv adds rems
        s.watch_list (s, []) x hx
  · intro env s p hp
    unfold SyncDict.add_watch
    by_cases he : env.pathExists p
    · simp [he, hp]
    · simp [he]

/-- C3 (witness): the amended theorem applied at a concrete state with a
desynced handle, and at an `addWatch` of an already-watched handle. -/
theorem C3_witness :
    ("d" ∈ (sC3w.run [.monitor]).desynced_list) ∧
    ((sC3w.add_watch envC3 "w").1 = sC3w) :=
  ⟨C3_state_machine_amended.1 sC3w [.monitor] "d" (by decide),
   C3_state_machine_amended.2.2 envC3 sC3w "w" (Or.inl (by decide))⟩

theorem applyFold_spec (env : FileEnv) (base : PyVal) (sep : String)
    (mv : List (String × String)) (adds rems : List String) :
    ∀ (hs : List String) (st : SyncDict) (log : List (String × PyVal)),
      hs.Nodup → (∀ h ∈ hs, h ∈ st.watch_list) → st.watch_list.Nodup →
      ((∀ x, x ∈ (hs.foldl (applyStep env base sep mv adds rems) (st, log)).1.watch_list ↔
          (x ∈ st.watch_list ∧
            ¬(x ∈ hs ∧ (processWatch env base sep mv adds rems x).isOk = false))) ∧
       (∀ x, x ∈ (hs.foldl (applyStep env base sep mv adds rems) (st, log)).1.desynced_list ↔
          (x ∈ st.desynced_list ∨
            (x ∈ hs ∧ (processWatch env base sep mv adds rems x).isOk = false))) ∧
       (hs.foldl (applyStep env base sep mv adds rems) (st, log)).2 =
          log ++ hs.filterMap (fun h =>
            match processWatch env base sep mv adds rems h with
            | .ok doc => some (h, doc)
            | .error _ => none) ∧
       (hs.foldl (applyStep env base sep mv adds rems) (st, log)).1.watch_list.Nodup ∧
       (hs.foldl (applyStep env base sep mv adds rems) (st, log)).1.diffdict = st.diffdict ∧
       (hs.foldl (applyStep env base sep mv adds rems) (st, log)).1.moves = st.moves ∧
       (hs.foldl (applyStep env base sep mv adds rems) (st, log)).1.baseline_keysums = st.baseline_keysums ∧
       (hs.foldl (applyStep env base sep mv adds rems) (st, log)).1.path = st.path ∧
       (hs.foldl (applyStep env base sep mv adds rems) (st, log)).1.separator = st.separator) := by
  intro hs
  induction hs with
  | nil =>
    intro st log _ _ hwnd
    simp [hwnd]
  | cons p hs ih =>
    intro st log hnd hsub hwnd
    have hndt : hs.Nodup := (List.nodup_cons.mp hnd).2
    have hpns : p ∉ hs := (List.nodup_cons.mp hnd).1
    rw [List.foldl_cons]
    cases hp : processWatch env base sep mv adds rems p with
    | ok doc =>
      have hstep : applyStep env base sep mv adds rems (st, log) p =
          (st, log ++ [(p, doc)]) := by
        unfold applyStep
        rw [hp]
      rw [hstep]
      have hokp : (processWatch env base sep mv adds rems p).isOk = true := by
        rw [hp]; rfl
      obtain ⟨ihw, ihd, ihl, ihn, ihf⟩ :=
        ih st (log ++ [(p, doc)]) hndt (fun h hh => hsub h (by simp [hh])) hwnd
      refine ⟨?_, ?_, ?_, ihn, ihf⟩
      · intro x
        rw [ihw x]
        by_cases hxp : x = p
        · subst hxp
          simp [hokp, hpns]
        · simp [hxp]
      · intro x
        rw [ihd x]
        by_cases hxp : x = p
        · subst hxp
          simp [hokp, hpns]
        · simp [hxp]
      · rw [ihl, List.filterMap_cons]
        simp [hp]
    | error e =>
      have hstep : applyStep env base sep mv adds rems (st, log) p =
          ({ st with
             watch_list := st.watch_list.erase p,
             desynced_list :=
               if st.desynced_list.contains p then st.desynced_list
               else st.desynced_list ++ [p] }, log) := by
        unfold applyStep
        rw [hp]
      rw [hstep]
      have hfailp : (processWatch env base sep mv adds rems p).isOk = false := by
        rw [hp]; rfl
      have herase : ∀ x, x ∈ st.watch_list.erase p ↔ (x ≠ p ∧ x ∈ st.watch_list) :=
        fun x => List.Nodup.mem_erase_iff hwnd
      have hdesy : ∀ x,
          (x ∈ (if st.desynced_list.contains p then st.desynced_list
                else st.desynced_list ++ [p])) ↔
          (x ∈ st.desynced_list ∨ x = p) := by
        intro x
        by_cases hc : p ∈ st.desynced_list
        · have h1 : (if st.desynced_list.contains p then st.desynced_list
                     else st.desynced_list ++ [p]) = st.desynced_list := by
            simp [List.contains, List.elem_eq_mem, hc]
          rw [h1]
          exact ⟨Or.inl, fun h => h.elim id (fun hxp => hxp ▸ hc)⟩
        · have h1 : (if st.desynced_list.contains p then st.desynced_list
                     else st.desynced_list ++ [p]) = st.desynced_list ++ [p] := by
            simp [List.contains, List.elem_eq_mem, hc]
          rw [h1]
          simp
      obtain ⟨ihw, ihd, ihl, ihn, ihdd, ihmv, ihbk, ihpa, ihsep⟩ :=
        ih ({ st with
              watch_list := st.watch_list.erase p,
              desynced_list :=
                if st.desynced_list.contains p then st.desynced_list
                else st.desynced_list ++ [p] }) log hndt
          (fun h hh => (herase h).mpr
            ⟨fun hhp => hpns (hhp ▸ hh), hsub h (by simp [hh])⟩)
          (hwnd.erase p)
      refine ⟨?_, ?_, ?_, ihn, ihdd, ihmv, ihbk, ihpa, ihsep⟩
      · intro x
        rw [ihw x]
        simp only [herase x]
        by_cases hxp : x = p
        · subst hxp
          simp [hfailp]
        · simp [hxp]
      · intro x
        rw [ihd x]
        simp only [hdesy x]
        by_cases hxp : x = p
        · subst hxp
          simp [hfailp, hpns]
        · simp [hxp]
      · rw [ihl, List.filterMap_cons]
        simp [hp]

/-- C5: `applyChanges` isolates failures per document: every watched
handle is processed independently; a handle whose processing raises is
removed from the watched set and added to the desynced set, every other
watched handle's document is still processed and written (the log), the
base store and the rest of the engine state are untouched, and the call
itself always returns (never propagating the exception). -/
theorem C5_failure_isolation (env : FileEnv) (s : SyncDict)
    (mv : List (String × String)) (adds rems : List String)
    (hm : s.moves = some (mv, adds, rems)) (hnd : s.watch_list.Nodup) :
    (∀ h, h ∈ (SyncDict.applyChanges env s).1.watch_list ↔
        (h ∈ s.watch_list ∧
          (processWatch env s.diffdict.data s.separator mv adds rems h).isOk = true)) ∧
    (∀ h, h ∈ (SyncDict.applyChanges env s).1.desynced_list ↔
        (h ∈ s.desynced_list ∨
          (h ∈ s.watch_list ∧
            (processWatch env s.diffdict.data s.separator mv adds rems h).isOk = false))) ∧
    (SyncDict.applyChanges env s).2 = s.watch_list.filterMap (fun h =>
        match processWatch env s.diffdict.data s.separator mv adds rems h with
        | .ok doc => some (h, doc)
        | .error _ => none) ∧
    (SyncDict.applyChanges env s).1.diffdict = s.diffdict ∧
    (SyncDict.applyChanges env s).1.moves = s.moves ∧
    (SyncDict.applyChanges env s).1.baseline_keysums = s.baseline_keysums ∧
    (SyncDict.applyChanges env s).1.path = s.path := by
  have happly : SyncDict.applyChanges env s =
      s.watch_list.foldl
        (applyStep env s.diffdict.data s.separator mv adds rems) (s, []) := by
    unfold SyncDict.applyChanges
    rw [hm]
  obtain ⟨ihw, ihd, ihl, _, ihdd, ihmv, ihbk, ihpa, _⟩ :=
    applyFold_spec env s.diffdict.data s.separator mv adds rems
      s.watch_list s [] hnd (fun h hh => hh) hnd
  rw [happly]
  refine ⟨?_, ?_, by simpa using ihl, ihdd, ihmv, ihbk, ihpa⟩
  · intro h
    rw [ihw h]
    by_cases hh : h ∈ s.watch_list
    · simp only [hh, true_and]
      cases hok : (processWatch env s.diffdict.data s.separator mv adds rems h).isOk
      · simp [hok]
      · simp [hok]
    · simp [hh]
  · intro h
    exact ihd h

/-- C5 (witness): the theorem applied at a concrete engine with one
loadable and one failing handle: the failing one lands in `desynced`,
the healthy one stays watched. -/
theorem C5_witness :
    ("bad" ∈ (SyncDict.applyChanges envC5 sC5).1.desynced_list) ∧
    ("ok" ∈ (SyncDict.applyChanges envC5 sC5).1.watch_list) :=
  ⟨((C5_failure_isolation envC5 sC5 [] [] [] rfl (by decide)).2.1 "bad").mpr
     (Or.inr ⟨by decide, by decide⟩),
   ((C5_failure_isolation envC5 sC5 [] [] [] rfl (by decide)).1 "ok").mpr
     ⟨by decide, by decide⟩⟩

theorem monitorStep_eq_move (baseline current : List (String × String))
    (st : MonitorState) (r c a : String)
    (hlk : List.lookup r baseline = some c)
    (hrv : revLookup current c = some a)
    (ha : a ∈ st.remaining_added) :
    monitorStep baseline current st r =
      { moves := st.moves ++ [(r, a)],
        remaining_added := st.remaining_added.erase a,
        remaining_removed := st.remaining_removed.erase r } := by
  unfold monitorStep
  simp only [hlk, hrv]
  rw [if_pos]
  simp [List.contains, List.elem_iff, ha]

theorem monitorStep_eq_skip (baseline current : List (String × String))
    (st : MonitorState) (r : String)
    (h : List.lookup r baseline = none ∨
      (∃ c, List.lookup r baseline = some c ∧ revLookup current c = none) ∨
      (∃ c a, List.lookup r baseline = some c ∧ revLookup current c = some a ∧
        a ∉ st.remaining_added)) :
    monitorStep baseline current st r = st := by
  unfold monitorStep
  rcases h with h | ⟨c, hc, hrv⟩ | ⟨c, a, hc, hrv, ha⟩
  · simp only [h]
  · simp only [hc, hrv]
  · simp only [hc, hrv]
    rw [if_neg]
    simp [List.contains, List.elem_iff, ha]

theorem monitorStep_inv (baseline current : List (String × String))
    (A R : List String) (st : MonitorState) (r : String)
    (hI : MonInv A R st) (hr : r ∈ R) (hrms : r ∉ st.moves.map Prod.fst) :
    MonInv A R (monitorStep baseline current st r) ∧
    (∀ k, k ∈ (monitorStep baseline current st r).moves.map Prod.fst →
      (k ∈ st.moves.map Prod.fst ∨ k = r)) := by
  cases hlk : List.lookup r baseline with
  | none =>
    rw [monitorStep_eq_skip baseline current st r (Or.inl hlk)]
    exact ⟨hI, fun k hk => Or.inl hk⟩
  | some c =>
    cases hrv : revLookup current c with
    | none =>
      rw [monitorStep_eq_skip baseline current st r (Or.inr (Or.inl ⟨c, hlk, hrv⟩))]
      exact ⟨hI, fun k hk => Or.inl hk⟩
    | some a =>
      by_cases ha : a ∈ st.remaining_added
      · rw [monitorStep_eq_move baseline current st r c a hlk hrv ha]
        have haA : a ∈ A := hI.ra_sub a ha
        have hamt : a ∉ st.moves.map Prod.snd := (hI.added_iff a haA).mp ha
        constructor
        · refine ⟨hI.ra_nodup.erase a, hI.rr_nodup.erase r, ?_, ?_, ?_, ?_, ?_,
            ?_, ?_, ?_⟩
          · simp only [List.map_append, List.map_cons, List.map_nil]
            rw [List.nodup_append]
            exact ⟨hI.ms_nodup, List.nodup_singleton r,
              fun k hk hk2 => by simp at hk2; exact hrms (hk2 ▸ hk)⟩
          · simp only [List.map_append, List.map_cons, List.map_nil]
            rw [List.nodup_append]
            exact ⟨hI.mt_nodup, List.nodup_singleton a,
              fun k hk hk2 => by simp at hk2; exact hamt (hk2 ▸ hk)⟩
          · exact fun k hk => hI.ra_sub k (List.mem_of_mem_erase hk)
          · exact fun k hk => hI.rr_sub k (List.mem_of_mem_erase hk)
          · intro k hk
            simp only [List.map_append, List.map_cons, List.map_nil,
              List.mem_append, List.mem_singleton] at hk
            rcases hk with hk | hk
            · exact hI.mt_sub k hk
            · exact hk ▸ haA
          · intro k hk
            simp only [List.map_append, List.map_cons, List.map_nil,
              List.mem_append, List.mem_singleton] at hk
            rcases hk with hk | hk
            · exact hI.ms_sub k hk
            · exact hk ▸ hr
          · intro k hkA
            simp only [List.map_append, List.map_cons, List.map_nil,
              List.mem_append, List.mem_singleton,
              List.Nodup.mem_erase_iff hI.ra_nodup]
            by_cases hka : k = a
            · subst hka
              constructor
              · intro hfalse
                exact absurd rfl hfalse.1
              · intro hfalse
                exact absurd (Or.inr rfl) hfalse
            · rw [hI.added_iff k hkA]
              constructor
              · intro h1 h2
                rcases h2 with h2 | h2
                · exact h1.2 h2
                · exact hka h2
              · intro h1
                exact ⟨hka, fun h2 => h1 (Or.inl h2)⟩
          · intro k hkR
            simp only [List.map_append, List.map_cons, List.map_nil,
              List.mem_append, List.mem_singleton,
              List.Nodup.mem_erase_iff hI.rr_nodup]
            by_cases hkr : k = r
            · subst hkr
              constructor
              · intro hfalse
                exact absurd rfl hfalse.1
              · intro hfalse
                exact absurd (Or.inr rfl) hfalse
            · rw [hI.removed_iff k hkR]
              constructor
              · intro h1 h2
                rcases h2 with h2 | h2
                · exact h1.2 h2
                · exact hkr h2
              · intro h1
                exact ⟨hkr, fun h2 => h1 (Or.inl h2)⟩
        · intro k hk
          simp only [List.map_append, List.map_cons, List.map_nil,
            List.mem_append, List.mem_singleton] at hk
          exact hk
      · rw [monitorStep_eq_skip baseline current st r
          (Or.inr (Or.inr ⟨c, a, hlk, hrv, ha⟩))]
        exact ⟨hI, fun k hk => Or.inl hk⟩

theorem monitorFold_inv (baseline current : List (String × String))
    (A R : List String) :
    ∀ (ord : List String) (st : MonitorState),
      MonInv A R st → ord.Nodup → (∀ k ∈ ord, k ∈ R) →
      (∀ k ∈ ord, k ∉ st.moves.map Prod.fst) →
      MonInv A R (ord.foldl (monitorStep baseline current) st) := by
  intro ord
  induction ord with
  | nil => intro st hI _ _ _; exact hI
  | cons r rest ih =>
    intro st hI hnd hsub hun
    obtain ⟨hrrest, hndr⟩ := List.nodup_cons.mp hnd
    rw [List.foldl_cons]
    obtain ⟨hI2, hms2⟩ := monitorStep_inv baseline current A R st r hI
      (hsub r (by simp)) (hun r (by simp))
    exact ih _ hI2 hndr (fun k hk => hsub k (by simp [hk]))
      (fun k hk hkms =>
        (hms2 k hkms).elim (hun k (by simp [hk]))
          (fun hkr => hrrest (hkr ▸ hk)))

/-- C4: monitor's diff classification exactly partitions the symmetric
difference of the two snapshots' leaf-path sets, whatever (duplicate-free)
order the removed keys are examined in: true additions and move targets
partition `keys(current) - keys(baseline)`, true removals and move
sources partition `keys(baseline) - keys(current)`, the four lists are
pairwise disjoint, and each added path is paired with at most one
removed path and vice versa (the move map's sources and targets are
duplicate-free). -/
theorem C4_monitor_conservation (baseline current : List (String × String))
    (remOrder : List String)
    (hb : (baseline.map Prod.fst).Nodup) (hc : (current.map Prod.fst).Nodup)
    (hord : remOrder.Nodup)
    (hsub : ∀ k ∈ remOrder, k ∈ removedOrder baseline current) :
    (∀ k, k ∈ addedOrder baseline current ↔
      (k ∈ (monitorCore baseline current remOrder).remaining_added ∨
       k ∈ (monitorCore baseline current remOrder).moves.map Prod.snd)) ∧
    (∀ k, k ∈ removedOrder baseline current ↔
      (k ∈ (monitorCore baseline current remOrder).remaining_removed ∨
       k ∈ (monitorCore baseline current remOrder).moves.map Prod.fst)) ∧
    (∀ k, ¬(k ∈ (monitorCore baseline current remOrder).remaining_added ∧
            k ∈ (monitorCore baseline current remOrder).moves.map Prod.snd)) ∧
    (∀ k, ¬(k ∈ (monitorCore baseline current remOrder).remaining_removed ∧
            k ∈ (monitorCore baseline current remOrder).moves.map Prod.fst)) ∧
    (∀ k, ¬(k ∈ (monitorCore baseline current remOrder).remaining_added ∧
            k ∈ (monitorCore baseline current remOrder).remaining_removed)) ∧
    (∀ k, ¬(k ∈ (monitorCore baseline current remOrder).remaining_added ∧
            k ∈ (monitorCore baseline current remOrder).moves.map Prod.fst)) ∧
    (∀ k, ¬(k ∈ (monitorCore baseline current remOrder).moves.map Prod.snd ∧
            k ∈ (monitorCore baseline current remOrder).remaining_removed)) ∧
    (∀ k, ¬(k ∈ (monitorCore baseline current remOrder).moves.map Prod.snd ∧
            k ∈ (monitorCore baseline current remOrder).moves.map Prod.fst)) ∧
    ((monitorCore baseline current remOrder).moves.map Prod.fst).Nodup ∧
    ((monitorCore baseline current remOrder).moves.map Prod.snd).Nodup := by
  have hARdisj : ∀ k, k ∈ addedOrder baseline current →
      k ∉ removedOrder baseline current := by
    intro k hkA hkR
    rw [addedOrder, List.mem_filter] at hkA
    rw [removedOrder, List.mem_filter] at hkR
    have h3 : (List.map Prod.fst baseline).contains k = true := by
      simpa [List.contains, List.elem_iff] using hkR.1
    have h1 := hkA.2
    rw [h3] at h1
    simp at h1
  have hI0 : MonInv (addedOrder baseline current) (removedOrder baseline current)
      { moves := [], remaining_added := addedOrder baseline current,
        remaining_removed := removedOrder baseline current } := by
    refine ⟨hc.filter _, hb.filter _, by simp, by simp,
      fun k hk => hk, fun k hk => hk, by simp, by simp, ?_, ?_⟩
    · intro k hk
      simpa using hk
    · intro k hk
      simpa using hk
  have hIf : MonInv (addedOrder baseline current) (removedOrder baseline current)
      (monitorCore baseline current remOrder) := by
    unfold monitorCore
    exact monitorFold_inv baseline current _ _ remOrder _ hI0 hord hsub (by simp)
  refine ⟨?_, ?_, ?_, ?_, ?_, ?_, ?_, ?_, hIf.ms_nodup, hIf.mt_nodup⟩
  · intro k
    constructor
    · intro hkA
      by_cases hra : k ∈ (monitorCore baseline current remOrder).remaining_added
      · exact Or.inl hra
      · by_cases hmt : k ∈ (monitorCore baseline current remOrder).moves.map Prod.snd
        · exact Or.inr hmt
        · exact absurd ((hIf.added_iff k hkA).mpr hmt) hra
    · intro hk
      rcases hk with hk | hk
      · exact hIf.ra_sub k hk
      · exact hIf.mt_sub k hk
  · intro k
    constructor
    · intro hkR
      by_cases hrr : k ∈ (monitorCore baseline current remOrder).remaining_removed
      · exact Or.inl hrr
      · by_cases hms : k ∈ (monitorCore baseline current remOrder).moves.map Prod.fst
        · exact Or.inr hms
        · exact absurd ((hIf.removed_iff k hkR).mpr hms) hrr
    · intro hk
      rcases hk with hk | hk
      · exact hIf.rr_sub k hk
      · exact hIf.ms_sub k hk
  · intro k ⟨h1, h2⟩
    exact (hIf.added_iff k (hIf.ra_sub k h1)).mp h1 h2
  · intro k ⟨h1, h2⟩
    exact (hIf.removed_iff k (hIf.rr_sub k h1)).mp h1 h2
  · intro k ⟨h1, h2⟩
    exact hARdisj k (hIf.ra_sub k h1) (hIf.rr_sub k h2)
  · intro k ⟨h1, h2⟩
    exact hARdisj k (hIf.ra_sub k h1) (hIf.ms_sub k h2)
  · intro k ⟨h1, h2⟩
    exact hARdisj k (hIf.mt_sub k h1) (hIf.rr_sub k h2)
  · intro k ⟨h1, h2⟩
    exact hARdisj k (hIf.mt_sub k h1) (hIf.ms_sub k h2)

/-- C4 (witness): the conservation theorem applied to a concrete pair of
snapshots in which one removal is matched as a move and one removal and
one addition remain genuine. -/
theorem C4_witness :
    ("d" ∈ (monitorCore [("a", "1"), ("b", "2")] [("c", "1"), ("d", "9")]
        ["a", "b"]).remaining_added ∨
     "d" ∈ (monitorCore [("a", "1"), ("b", "2")] [("c", "1"), ("d", "9")]
        ["a", "b"]).moves.map Prod.snd) :=
  ((C4_monitor_conservation [("a", "1"), ("b", "2")] [("c", "1"), ("d", "9")]
      ["a", "b"] (by decide) (by decide) (by decide) (by decide)).1 "d").mp
    (by decide)

theorem ksSet_lookup_self :
    ∀ (ks : List (String × String)) (k v : String),
      List.lookup k (ksSet ks k v) = some v := by
  intro ks
  induction ks with
  | nil => intro k v; simp [ksSet, List.lookup]
  | cons p rest ih =>
    intro k v
    by_cases h : p.1 = k
    · have h1 : ksSet (p :: rest) k v = (p.1, v) :: rest := by
        simp [ksSet, h]
      rw [h1]
      have hbeq : (k == p.1) = true := beq_iff_eq.mpr h.symm
      simp [List.lookup, hbeq]
    · have h1 : ksSet (p :: rest) k v = p :: ksSet rest k v := by
        simp [ksSet, h]
      rw [h1]
      have hbeq : (k == p.1) = false := beq_eq_false_iff_ne.mpr (fun he => h he.symm)
      simp [List.lookup, hbeq, ih]

theorem ksSet_lookup_other :
    ∀ (ks : List (String × String)) (k v k' : String), k' ≠ k →
      List.lookup k' (ksSet ks k v) = List.lookup k' ks := by
  intro ks
  induction ks with
  | nil =>
    intro k v k' hne
    have hbeq : (k' == k) = false := beq_eq_false_iff_ne.mpr hne
    simp [ksSet, List.lookup, hbeq]
  | cons p rest ih =>
    intro k v k' hne
    by_cases h : p.1 = k
    · have h1 : ksSet (p :: rest) k v = (p.1, v) :: rest := by
        simp [ksSet, h]
      rw [h1]
      have hbeq : (k' == p.1) = false :=
        beq_eq_false_iff_ne.mpr (fun he => hne (he.trans h))
      simp [List.lookup, hbeq]
    · have h1 : ksSet (p :: rest) k v = p :: ksSet rest k v := by
        simp [ksSet, h]
      rw [h1]
      by_cases h2 : k' = p.1
      · have hbeq : (k' == p.1) = true := beq_iff_eq.mpr h2
        simp [List.lookup, hbeq]
      · have hbeq : (k' == p.1) = false := beq_eq_false_iff_ne.mpr h2
        simp [List.lookup, hbeq, ih _ _ _ hne]

theorem ksPop_lookup_self :
    ∀ (ks : List (String × String)) (k : String),
      List.lookup k (ksPop ks k) = none := by
  intro ks
  induction ks with
  | nil => intro k; rfl
  | cons p rest ih =>
    intro k
    by_cases h : p.1 = k
    · have h1 : ksPop (p :: rest) k = ksPop rest k := by
        simp [ksPop, List.filter_cons, h]
      rw [h1, ih]
    · have h1 : ksPop (p :: rest) k = p :: ksPop rest k := by
        simp [ksPop, List.filter_cons, h]
      rw [h1]
      have hbeq : (k == p.1) = false :=
        beq_eq_false_iff_ne.mpr (fun he => h he.symm)
      simp [List.lookup, hbeq, ih]

theorem ksPop_lookup_other :
    ∀ (ks : List (String × String)) (k k' : String), k' ≠ k →
      List.lookup k' (ksPop ks k) = List.lookup k' ks := by
  intro ks
  induction ks with
  | nil => intro k k' _; rfl
  | cons p rest ih =>
    intro k k' hne
    by_cases h : p.1 = k
    · have h1 : ksPop (p :: rest) k = ksPop rest k := by
        simp [ksPop, List.filter_cons, h]
      rw [h1]
      have hbeq : (k' == p.1) = false :=
        beq_eq_false_iff_ne.mpr (fun he => hne (he.trans h))
      simp [List.lookup, hbeq, ih _ _ hne]
    · have h1 : ksPop (p :: rest) k = p :: ksPop rest k := by
        simp [ksPop, List.filter_cons, h]
      rw [h1]
      by_cases h2 : k' = p.1
      · have hbeq : (k' == p.1) = true := beq_iff_eq.mpr h2
        simp [List.lookup, hbeq]
      · have hbeq : (k' == p.1) = false := beq_eq_false_iff_ne.mpr h2
        simp [List.lookup, hbeq, ih _ _ hne]

theorem lookup_isSome_of_mem_keys :
    ∀ (ks : List (String × String)) (k : String),
      k ∈ ks.map Prod.fst → (List.lookup k ks).isSome := by
  intro ks
  induction ks with
  | nil => intro k hk; simp at hk
  | cons p rest ih =>
    intro k hk
    by_cases h : k = p.1
    · simp [List.lookup, h]
    · have hbeq : (k == p.1) = false := by simpa using h
      simp only [List.map_cons, List.mem_cons] at hk
      rcases hk with hk | hk
      · exact absurd hk h
      · simp [List.lookup, hbeq, ih k hk]

theorem lookup_none_of_not_mem_keys :
    ∀ (ks : List (String × String)) (k : String),
      k ∉ ks.map Prod.fst → List.lookup k ks = none := by
  intro ks
  induction ks with
  | nil => intro k _; rfl
  | cons p rest ih =>
    intro k hk
    simp only [List.map_cons, List.mem_cons] at hk
    push_neg at hk
    have hbeq : (k == p.1) = false := by simpa using hk.1
    simp [List.lookup, hbeq, ih k hk.2]

theorem mem_keys_iff_lookup_isSome (ks : List (String × String)) (k : String) :
    k ∈ ks.map Prod.fst ↔ (List.lookup k ks).isSome := by
  constructor
  · exact lookup_isSome_of_mem_keys ks k
  · intro h
    by_contra hmem
    rw [lookup_none_of_not_mem_keys ks k hmem] at h
    simp at h

theorem PyObj.get_isSome_of_mem_keys :
    ∀ (o : PyObj) (k : String), k ∈ o.keys → (o.get k).isSome
  | .nil, k, hk => by simp [PyObj.keys] at hk
  | .cons k0 v rest, k, hk => by
    by_cases h : k0 = k
    · simp [PyObj.get, h]
    · simp only [PyObj.keys, List.mem_cons] at hk
      rcases hk with hk | hk
      · exact absurd hk.symm h
      · simp [PyObj.get, h, PyObj.get_isSome_of_mem_keys rest k hk]

theorem PyVal.topGet_isSome_of_mem_topKeys (d : PyVal) (k : String)
    (h : k ∈ d.topKeys) : (d.topGet k).isSome := by
  cases d with
  | scalar s => simp [PyVal.topKeys] at h
  | dict o => exact PyObj.get_isSome_of_mem_keys o k h
  | list a => simp [PyVal.topKeys] at h

theorem PyObj.get_none_of_not_mem_keys :
    ∀ (o : PyObj) (k : String), k ∉ o.keys → o.get k = none
  | .nil, _, _ => rfl
  | .cons k0 v rest, k, hk => by
    simp only [PyObj.keys, List.mem_cons] at hk
    push_neg at hk
    have hne : ¬k0 = k := fun h => hk.1 h.symm
    simp [PyObj.get, hne, PyObj.get_none_of_not_mem_keys rest k hk.2]

theorem PyVal.topGet_none_of_not_mem_topKeys (d : PyVal) (k : String)
    (h : k ∉ d.topKeys) : d.topGet k = none := by
  cases d with
  | scalar s => rfl
  | dict o => exact PyObj.get_none_of_not_mem_keys o k h
  | list a => rfl

theorem updateAtKey_dead (st : DiffDict) (k : String)
    (hget : deep_get st.data k st.separator = none) :
    st.updateAtKey k = (st, some (PyErr.keyError k)) := by
  unfold DiffDict.updateAtKey
  simp [hget]

theorem updateAtKey_tracked (st : DiffDict) (k : String) (cur : PyVal)
    (c : String)
    (hget : deep_get st.data k st.separator = some cur)
    (hlk : List.lookup k st.keysums = some c) :
    st.updateAtKey k =
      (if fingerprint cur = c then (st, none)
       else ({ st with
               keysums := ksSet st.keysums k (fingerprint cur),
               changes := st.changes ++
                 [{ key := k,
                    stamp := if st.doStamp then some st.clock else none,
                    previous := some c, new := some (fingerprint cur) }],
               fired := if st.nCallbacks > 0 then st.fired + st.nCallbacks
                        else st.fired,
               clock := st.clock + 1 }, none)) := by
  unfold DiffDict.updateAtKey DiffDict.compare
  simp only [hget, hlk]
  by_cases hfp : fingerprint cur = c
  · have hbeq : ((some c : Option String) == some (fingerprint cur)) = true := by
      simp [hfp]
    simp [hbeq, hfp]
  · have hbeq : ((some c : Option String) == some (fingerprint cur)) = false := by
      simp
      exact fun h => hfp h.symm
    simp [hbeq, hfp]

theorem compare_new (st : DiffDict) (k : String) (value : PyVal)
    (hlk : List.lookup k st.keysums = none) :
    st.compare k none (some value) =
      (true, { st with
               keysums := ksSet st.keysums k (fingerprint value),
               changes := st.changes ++
                 [{ key := k,
                    stamp := if st.doStamp then some st.clock else none,
                    previous := none, new := some (fingerprint value) }],
               fired := if st.nCallbacks > 0 then st.fired + st.nCallbacks
                        else st.fired,
               clock := st.clock + 1 }) := by
  unfold DiffDict.compare
  simp [hlk]

theorem updAllFold_spec :
    ∀ (tracked : List String) (st : DiffDict) (ch orp : List String),
      tracked.Nodup →
      (∀ k ∈ tracked, (List.lookup k st.keysums).isSome) →
      ((tracked.foldl updAllStep (ch, orp, st)).2.2.data = st.data ∧
       (tracked.foldl updAllStep (ch, orp, st)).2.2.separator = st.separator ∧
       (tracked.foldl updAllStep (ch, orp, st)).2.1 =
         orp ++ tracked.filter
           (fun k => (deep_get st.data k st.separator).isNone) ∧
       (∀ k ∈ tracked,
         List.lookup k (tracked.foldl updAllStep (ch, orp, st)).2.2.keysums =
           (deep_get st.data k st.separator).map fingerprint) ∧
       (∀ k, k ∉ tracked →
         List.lookup k (tracked.foldl updAllStep (ch, orp, st)).2.2.keysums =
           List.lookup k st.keysums)) := by
  intro tracked
  induction tracked with
  | nil =>
    intro st ch orp _ _
    simp
  | cons k rest ih =>
    intro st ch orp hnd hsome
    obtain ⟨hknr, hndr⟩ := List.nodup_cons.mp hnd
    rw [List.foldl_cons]
    cases hget : deep_get st.data k st.separator with
    | none =>
      have hstep : updAllStep (ch, orp, st) k =
          (ch, orp ++ [k], { st with keysums := ksPop st.keysums k }) := by
        unfold updAllStep
        rw [updateAtKey_dead st k hget]
      rw [hstep]
      have hsome1 : ∀ k2 ∈ rest,
          (List.lookup k2
            ({ st with keysums := ksPop st.keysums k } : DiffDict).keysums).isSome := by
        intro k2 hk2
        have : List.lookup k2 (ksPop st.keysums k) = List.lookup k2 st.keysums :=
          ksPop_lookup_other st.keysums k k2 (fun he => hknr (he ▸ hk2))
        rw [show ({ st with keysums := ksPop st.keysums k } : DiffDict).keysums =
              ksPop st.keysums k from rfl, this]
        exact hsome k2 (by simp [hk2])
      obtain ⟨ihd, ihs, iho, iht, ihout⟩ :=
        ih { st with keysums := ksPop st.keysums k } ch (orp ++ [k]) hndr hsome1
      refine ⟨ihd, ihs, ?_, ?_, ?_⟩
      · rw [iho, List.filter_cons_of_pos (by simp [hget])]
        simp
      · intro k2 hk2
        rcases List.mem_cons.mp hk2 with hk2 | hk2
        · subst hk2
          rw [ihout k2 hknr,
            show ({ st with keysums := ksPop st.keysums k2 } : DiffDict).keysums =
              ksPop st.keysums k2 from rfl,
            ksPop_lookup_self, hget]
          rfl
        · exact iht k2 hk2
      · intro k2 hk2
        have hkne : k2 ≠ k := fun he => hk2 (he ▸ List.mem_cons_self k rest)
        rw [ihout k2 (fun hm => hk2 (List.mem_cons_of_mem k hm)),
          show ({ st with keysums := ksPop st.keysums k } : DiffDict).keysums =
            ksPop st.keysums k from rfl]
        exact ksPop_lookup_other st.keysums k k2 hkne
    | some cur =>
      obtain ⟨c, hc⟩ := Option.isSome_iff_exists.mp
        (hsome k (List.mem_cons_self k rest))
      by_cases hfp : fingerprint cur = c
      · have hstep : updAllStep (ch, orp, st) k = (ch, orp, st) := by
          unfold updAllStep
          rw [updateAtKey_tracked st k cur c hget hc, if_pos hfp]
          simp
        rw [hstep]
        obtain ⟨ihd, ihs, iho, iht, ihout⟩ :=
          ih st ch orp hndr (fun k2 hk2 => hsome k2 (by simp [hk2]))
        refine ⟨ihd, ihs, ?_, ?_,
          fun k2 hk2 => ihout k2 (fun hm => hk2 (List.mem_cons_of_mem k hm))⟩
        · rw [iho, List.filter_cons_of_neg]
          simp [hget]
        · intro k2 hk2
          rcases List.mem_cons.mp hk2 with hk2 | hk2
          · subst hk2
            rw [ihout k2 hknr, hc, hget]
            simp [hfp]
          · exact iht k2 hk2
      · have hstep : updAllStep (ch, orp, st) k =
            (ch ++ [k], orp,
             { st with
               keysums := ksSet st.keysums k (fingerprint cur),
               changes := st.changes ++
                 [{ key := k,
                    stamp := if st.doStamp then some st.clock else none,
                    previous := some c, new := some (fingerprint cur) }],
               fired := if st.nCallbacks > 0 then st.fired + st.nCallbacks
                        else st.fired,
               clock := st.clock + 1 }) := by
          unfold updAllStep
          rw [updateAtKey_tracked st k cur c hget hc, if_neg hfp]
          simp
        rw [hstep]
        have hsome1 : ∀ k2 ∈ rest,
            (List.lookup k2
              ({ st with
                 keysums := ksSet st.keysums k (fingerprint cur),
                 changes := st.changes ++
                   [{ key := k,
                      stamp := if st.doStamp then some st.clock else none,
                      previous := some c, new := some (fingerprint cur) }],
                 fired := if st.nCallbacks > 0 then st.fired + st.nCallbacks
                          else st.fired,
                 clock := st.clock + 1 } : DiffDict).keysums).isSome := by
          intro k2 hk2
          have heq : List.lookup k2 (ksSet st.keysums k (fingerprint cur)) =
              List.lookup k2 st.keysums :=
            ksSet_lookup_other st.keysums k (fingerprint cur) k2
              (fun he => hknr (he ▸ hk2))
          rw [show ({ st with
                keysums := ksSet st.keysums k (fingerprint cur),
                changes := st.changes ++
                  [{ key := k,
                     stamp := if st.doStamp then some st.clock else none,
                     previous := some c, new := some (fingerprint cur) }],
                fired := if st.nCallbacks > 0 then st.fired + st.nCallbacks
                         else st.fired,
                clock := st.clock + 1 } : DiffDict).keysums =
              ksSet st.keysums k (fingerprint cur) from rfl, heq]
          exact hsome k2 (by simp [hk2])
        obtain ⟨ihd, ihs, iho, iht, ihout⟩ :=
          ih ({ st with
                keysums := ksSet st.keysums k (fingerprint cur),
                changes := st.changes ++
                  [{ key := k,
                     stamp := if st.doStamp then some st.clock else none,
                     previous := some c, new := some (fingerprint cur) }],
                fired := if st.nCallbacks > 0 then st.fired + st.nCallbacks
                         else st.fired,
                clock := st.clock + 1 }) (ch ++ [k]) orp hndr hsome1
        refine ⟨ihd, ihs, ?_, ?_, ?_⟩
        · rw [iho, List.filter_cons_of_neg]
          simp [hget]
        · intro k2 hk2
          rcases List.mem_cons.mp hk2 with hk2 | hk2
          · subst hk2
            rw [ihout k2 hknr,
              show ({ st with
                   keysums := ksSet st.keysums k2 (fingerprint cur),
                   changes := st.changes ++
                     [{ key := k2,
                        stamp := if st.doStamp then some st.clock else none,
                        previous := some c, new := some (fingerprint cur) }],
                   fired := if st.nCallbacks > 0 then st.fired + st.nCallbacks
                            else st.fired,
                   clock := st.clock + 1 } : DiffDict).keysums =
                ksSet st.keysums k2 (fingerprint cur) from rfl,
              ksSet_lookup_self, hget]
            rfl
          · exact iht k2 hk2
        · intro k2 hk2
          have hkne : k2 ≠ k := fun he => hk2 (he ▸ List.mem_cons_self k rest)
          rw [ihout k2 (fun hm => hk2 (List.mem_cons_of_mem k hm)),
            show ({ st with
                 keysums := ksSet st.keysums k (fingerprint cur),
                 changes := st.changes ++
                   [{ key := k,
                      stamp := if st.doStamp then some st.clock else none,
                      previous := some c, new := some (fingerprint cur) }],
                 fired := if st.nCallbacks > 0 then st.fired + st.nCallbacks
                          else st.fired,
                 clock := st.clock + 1 } : DiffDict).keysums =
              ksSet st.keysums k (fingerprint cur) from rfl]
          exact ksSet_lookup_other st.keysums k (fingerprint cur) k2 hkne

theorem trackNewFold_spec :
    ∀ (ks : List String) (st : DiffDict) (nt : List String),
      ks.Nodup →
      (∀ k ∈ ks, (st.data.topGet k).isSome ∧ List.lookup k st.keysums = none) →
      ((ks.foldl trackNewStep (nt, st)).1 = nt ++ ks ∧
       (ks.foldl trackNewStep (nt, st)).2.data = st.data ∧
       (ks.foldl trackNewStep (nt, st)).2.separator = st.separator ∧
       (∀ k ∈ ks, List.lookup k (ks.foldl trackNewStep (nt, st)).2.keysums =
         (st.data.topGet k).map fingerprint) ∧
       (∀ k, k ∉ ks → List.lookup k (ks.foldl trackNewStep (nt, st)).2.keysums =
         List.lookup k st.keysums)) := by
  intro ks
  induction ks with
  | nil =>
    intro st nt _ _
    simp
  | cons k rest ih =>
    intro st nt hnd hall
    obtain ⟨hknr, hndr⟩ := List.nodup_cons.mp hnd
    obtain ⟨hksome, hklk⟩ := hall k (List.mem_cons_self k rest)
    obtain ⟨v, hv⟩ := Option.isSome_iff_exists.mp hksome
    rw [List.foldl_cons]
    have hstep : trackNewStep (nt, st) k =
        (nt ++ [k],
         { st with
           keysums := ksSet st.keysums k (fingerprint v),
           changes := st.changes ++
             [{ key := k,
                stamp := if st.doStamp then some st.clock else none,
                previous := none, new := some (fingerprint v) }],
           fired := if st.nCallbacks > 0 then st.fired + st.nCallbacks
                    else st.fired,
           clock := st.clock + 1 }) := by
      unfold trackNewStep
      simp only [hv, compare_new st k v hklk]
    rw [hstep]
    have hall1 : ∀ k2 ∈ rest,
        ((({ st with
             keysums := ksSet st.keysums k (fingerprint v),
             changes := st.changes ++
               [{ key := k,
                  stamp := if st.doStamp then some st.clock else none,
                  previous := none, new := some (fingerprint v) }],
             fired := if st.nCallbacks > 0 then st.fired + st.nCallbacks
                      else st.fired,
             clock := st.clock + 1 } : DiffDict).data.topGet k2).isSome ∧
         List.lookup k2
           ({ st with
              keysums := ksSet st.keysums k (fingerprint v),
              changes := st.changes ++
                [{ key := k,
                   stamp := if st.doStamp then some st.clock else none,
                   previous := none, new := some (fingerprint v) }],
              fired := if st.nCallbacks > 0 then st.fired + st.nCallbacks
                       else st.fired,
              clock := st.clock + 1 } : DiffDict).keysums = none) := by
      intro k2 hk2
      obtain ⟨h1, h2⟩ := hall k2 (by simp [hk2])
      refine ⟨h1, ?_⟩
      have heq : List.lookup k2 (ksSet st.keysums k (fingerprint v)) =
          List.lookup k2 st.keysums :=
        ksSet_lookup_other st.keysums k (fingerprint v) k2
          (fun he => hknr (he ▸ hk2))
      rw [show ({ st with
            keysums := ksSet st.keysums k (fingerprint v),
            changes := st.changes ++
              [{ key := k,
                 stamp := if st.doStamp then some st.clock else none,
                 previous := none, new := some (fingerprint v) }],
            fired := if st.nCallbacks > 0 then st.fired + st.nCallbacks
                     else st.fired,
            clock := st.clock + 1 } : DiffDict).keysums =
          ksSet st.keysums k (fingerprint v) from rfl, heq]
      exact h2
    obtain ⟨ihn, ihd, ihs, iht, ihout⟩ :=
      ih ({ st with
            keysums := ksSet st.keysums k (fingerprint v),
            changes := st.changes ++
              [{ key := k,
                 stamp := if st.doStamp then some st.clock else none,
                 previous := none, new := some (fingerprint v) }],
            fired := if st.nCallbacks > 0 then st.fired + st.nCallbacks
                     else st.fired,
            clock := st.clock + 1 }) (nt ++ [k]) hndr hall1
    refine ⟨by rw [ihn]; simp, ihd, ihs, ?_, ?_⟩
    · intro k2 hk2
      rcases List.mem_cons.mp hk2 with hk2 | hk2
      · subst hk2
        rw [ihout k2 hknr,
          show ({ st with
               keysums := ksSet st.keysums k2 (fingerprint v),
               changes := st.changes ++
                 [{ key := k2,
                    stamp := if st.doStamp then some st.clock else none,
                    previous := none, new := some (fingerprint v) }],
               fired := if st.nCallbacks > 0 then st.fired + st.nCallbacks
                        else st.fired,
               clock := st.clock + 1 } : DiffDict).keysums =
            ksSet st.keysums k2 (fingerprint v) from rfl,
          ksSet_lookup_self, hv]
        rfl
      · exact iht k2 hk2
    · intro k2 hk2
      have hkne : k2 ≠ k := fun he => hk2 (he ▸ List.mem_cons_self k rest)
      rw [ihout k2 (fun hm => hk2 (List.mem_cons_of_mem k hm)),
        show ({ st with
             keysums := ksSet st.keysums k (fingerprint v),
             changes := st.changes ++
               [{ key := k,
                  stamp := if st.doStamp then some st.clock else none,
                  previous := none, new := some (fingerprint v) }],
             fired := if st.nCallbacks > 0 then st.fired + st.nCallbacks
                      else st.fired,
             clock := st.clock + 1 } : DiffDict).keysums =
          ksSet st.keysums k (fingerprint v) from rfl]
      exact ksSet_lookup_other st.keysums k (fingerprint v) k2 hkne

/-- C9 (counterexample): for the store built around `{a: {b: 1}}` with
nothing tracked, the nested leaf path `a/b` is present in the document
and untracked, yet `update_all(include_new_keys=True)` reports only the
top-level key `a` as newly tracked and leaves `a/b` untracked. -/
theorem C9_counterexample :
    deep_get ddNested.data "a/b" = some (mkI 1) ∧
    List.lookup "a/b" ddNested.keysums = none ∧
    (ddNested.update_all true).1.new_tracked = ["a"] ∧
    List.lookup "a/b" (ddNested.update_all true).2.keysums = none := by
  decide

/-- C9 (amended): `update_all(include_new_keys=True)` reports as orphaned
(and untracks) exactly the tracked keys whose value has disappeared, and
begins tracking exactly the untracked **top-level** keys of the document
(not nested leaf paths), fingerprinting each whole top-level value; the
final cache maps every live tracked key to its current value's
fingerprint and every other key to its top-level value's fingerprint
(or nothing). -/
theorem C9_update_all_amended (dd : DiffDict)
    (h1 : (dd.keysums.map Prod.fst).Nodup) (h2 : dd.data.topKeys.Nodup) :
    ((dd.update_all true).1.orphaned =
      (dd.keysums.map Prod.fst).filter
        (fun k => (deep_get dd.data k dd.separator).isNone)) ∧
    ((dd.update_all true).1.new_tracked =
      dd.data.topKeys.filter
        (fun k => !((dd.keysums.map Prod.fst).contains k &&
                    (deep_get dd.data k dd.separator).isSome))) ∧
    (∀ k, List.lookup k (dd.update_all true).2.keysums =
      if ((dd.keysums.map Prod.fst).contains k ∧
          (deep_get dd.data k dd.separator).isSome)
      then (deep_get dd.data k dd.separator).map fingerprint
      else (dd.data.topGet k).map fingerprint) := by
  obtain ⟨hAd, hAs, hAo, hAt, hAout⟩ :=
    updAllFold_spec (dd.keysums.map Prod.fst) dd [] [] h1
      (fun k hk => lookup_isSome_of_mem_keys dd.keysums k hk)
  set r1d : DiffDict :=
    ((dd.keysums.map Prod.fst).foldl updAllStep ([], [], dd)).2.2 with hr1d
  set NK : List String :=
    r1d.data.topKeys.filter
      (fun k => !(r1d.keysums.map Prod.fst).contains k) with hNK
  have hupd : dd.update_all true =
      ({ changed := ((dd.keysums.map Prod.fst).foldl updAllStep ([], [], dd)).1,
         new_tracked := (NK.foldl trackNewStep ([], r1d)).1,
         orphaned := ((dd.keysums.map Prod.fst).foldl updAllStep ([], [], dd)).2.1 },
       (NK.foldl trackNewStep ([], r1d)).2) := rfl
  -- membership of the keys tracked after the first loop
  have hr1keys : ∀ k, k ∈ r1d.keysums.map Prod.fst ↔
      (k ∈ dd.keysums.map Prod.fst ∧
       (deep_get dd.data k dd.separator).isSome) := by
    intro k
    rw [mem_keys_iff_lookup_isSome]
    by_cases hk : k ∈ dd.keysums.map Prod.fst
    · rw [hAt k hk]
      cases hget : deep_get dd.data k dd.separator <;> simp [hk]
    · rw [hAout k hk, lookup_none_of_not_mem_keys dd.keysums k hk]
      simp [hk]
  -- membership in the new-keys filter
  have hNKmem : ∀ k, k ∈ NK ↔
      (k ∈ dd.data.topKeys ∧
       ¬(k ∈ dd.keysums.map Prod.fst ∧
         (deep_get dd.data k dd.separator).isSome)) := by
    intro k
    rw [hNK, List.mem_filter, hAd]
    constructor
    · intro ⟨hk1, hk2⟩
      refine ⟨hk1, fun hmem => ?_⟩
      rw [← hr1keys k] at hmem
      simp [List.contains, List.elem_iff, hmem] at hk2
    · intro ⟨hk1, hk2⟩
      refine ⟨hk1, ?_⟩
      rw [← hr1keys k] at hk2
      simp [List.contains, List.elem_iff]
      intro x hx
      exact hk2 (List.mem_map_of_mem Prod.fst hx)
  have hNKnd : NK.Nodup := by
    rw [hNK, hAd]
    exact h2.filter _
  have hNKpre : ∀ k ∈ NK, (r1d.data.topGet k).isSome ∧
      List.lookup k r1d.keysums = none := by
    intro k hk
    obtain ⟨hk1, hk2⟩ := (hNKmem k).mp hk
    constructor
    · rw [hAd]
      exact PyVal.topGet_isSome_of_mem_topKeys dd.data k hk1
    · have hnm : k ∉ r1d.keysums.map Prod.fst := by
        rw [hr1keys k]
        exact hk2
      exact lookup_none_of_not_mem_keys r1d.keysums k hnm
  obtain ⟨ihn, ihd2, ihs2, iht2, ihout2⟩ :=
    trackNewFold_spec NK r1d [] hNKnd hNKpre
  refine ⟨?_, ?_, ?_⟩
  · rw [hupd]
    simpa using hAo
  · rw [hupd]
    show (NK.foldl trackNewStep ([], r1d)).1 = _
    rw [ihn]
    simp only [List.nil_append]
    rw [hNK, hAd]
    apply List.filter_congr
    intro k hk
    have hiff := hr1keys k
    cases hc1 : (r1d.keysums.map Prod.fst).contains k with
    | true =>
      have hmem : k ∈ r1d.keysums.map Prod.fst := by
        simpa [List.contains, List.elem_iff] using hc1
      rw [hiff] at hmem
      have : ((dd.keysums.map Prod.fst).contains k &&
          (deep_get dd.data k dd.separator).isSome) = true := by
        simp [List.contains, List.elem_iff, hmem.1, hmem.2]
      rw [this]
    | false =>
      have hmem : k ∉ r1d.keysums.map Prod.fst := by
        intro hm
        simp [List.contains, List.elem_iff, hm] at hc1
      rw [hiff] at hmem
      have : ((dd.keysums.map Prod.fst).contains k &&
          (deep_get dd.data k dd.separator).isSome) = false := by
        cases hc2 : (dd.keysums.map Prod.fst).contains k with
        | false => simp
        | true =>
          have hm2 : k ∈ dd.keysums.map Prod.fst := by
            simpa [List.contains, List.elem_iff] using hc2
          cases hs2 : (deep_get dd.data k dd.separator).isSome with
          | false => simp
          | true => exact absurd ⟨hm2, hs2⟩ hmem
      rw [this]
  · intro k
    rw [hupd]
    show List.lookup k (NK.foldl trackNewStep ([], r1d)).2.keysums = _
    have hcont : ((dd.keysums.map Prod.fst).contains k = true) ↔
        k ∈ dd.keysums.map Prod.fst := by
      simp [List.contains, List.elem_iff]
    by_cases hkNK : k ∈ NK
    · obtain ⟨hk1, hk2⟩ := (hNKmem k).mp hkNK
      rw [iht2 k hkNK, hAd,
        if_neg (fun hpair => hk2 ⟨hcont.mp hpair.1, hpair.2⟩)]
    · rw [ihout2 k hkNK]
      by_cases hkT : k ∈ dd.keysums.map Prod.fst
      · cases hget : deep_get dd.data k dd.separator with
        | none =>
          have hnotop : k ∉ dd.data.topKeys := fun htop =>
            hkNK ((hNKmem k).mpr ⟨htop, fun hpair => by
              rw [hget] at hpair
              simp at hpair⟩)
          rw [hAt k hkT, hget,
            if_neg (fun hpair => by simp at hpair),
            PyVal.topGet_none_of_not_mem_topKeys dd.data k hnotop]
        | some cur =>
          rw [hAt k hkT, if_pos ⟨hcont.mpr hkT, rfl⟩, hget]
      · have hnotop : k ∉ dd.data.topKeys := fun htop =>
          hkNK ((hNKmem k).mpr ⟨htop, fun hpair => hkT hpair.1⟩)
        rw [hAout k hkT, lookup_none_of_not_mem_keys dd.keysums k hkT,
          if_neg (fun hpair => hkT (hcont.mp hpair.1)),
          PyVal.topGet_none_of_not_mem_topKeys dd.data k hnotop]
        rfl

/-- C9 (witness): the amended theorem applied at a concrete store whose
single top-level key is tracked. -/
theorem C9_witness :
    (ddC6w.update_all true).1.new_tracked =
      ddC6w.data.topKeys.filter
        (fun k => !((ddC6w.keysums.map Prod.fst).contains k &&
                    (deep_get ddC6w.data k ddC6w.separator).isSome)) :=
  (C9_update_all_amended ddC6w (by decide) (by decide)).2.1


/-- C1: counterexample to unrestricted move preservation.  Base `{x: 1}`,
watched document `{x: "V"}`; the base leaf `x` is deleted and its content
re-created at `x/y` — a rename `monitor()` classifies as the move
`x -> x/y`.  But because the old path is a prefix of the new one,
`applyChanges()` first overwrites the dependent value at `x` with a fresh
container while replaying the move, then pops `x`: the document written
back for the watched handle is `\x7b\x7d` — the dependent value `V` is at
neither the new path nor the old one, refuting "the watched document's
file contains V at path b". -/
theorem C1_counterexample :
    sC1x.moves = some ([("x", "x/y")], [], []) ∧
    (SyncDict.applyChanges envC1x sC1x).2 = [("w", mkD [])] ∧
    deep_get (mkD []) "x/y" "/" = none :=
  ⟨by decide, by decide, rfl⟩

set_option maxHeartbeats 16000000 in
/-- C1 (amended): move preservation holds on the spec section-8 rename
shape, where the old path `a/b` is not a prefix of the new path `a/c` and
the fingerprint identifies the move uniquely.  For every dependent value
`V` other than `None` and every base value `X`: after deleting base leaf
`a/b` and re-creating its content at `a/c`, `monitor()` reports exactly
the move `a/b -> a/c` (no additions, no removals), and `applyChanges()`
writes for the watched handle the document `\x7ba: \x7bc: V\x7d\x7d` —
the dependent document's own value `V` now at `a/c`, nothing at `a/b`,
and the base's `X` never written over it. -/
theorem C1_move_preserves_amended (V X : Scalar) (hV : V ≠ Scalar.pynone) :
    (sC1am V X).monitor.moves = some ([("a/b", "a/c")], [], []) ∧
    (SyncDict.applyChanges (envC1am V) ((sC1am V X).monitor)).2 =
      [("w", mkD [("a", mkD [("c", PyVal.scalar V)])])] ∧
    deep_get (mkD [("a", mkD [("c", PyVal.scalar V)])]) "a/c" "/" =
      some (PyVal.scalar V) ∧
    deep_get (mkD [("a", mkD [("c", PyVal.scalar V)])]) "a/b" "/" = none := by
  have hmc : ∀ f : String, monitorCore [("a/b", f)] [("a/c", f)] ["a/b"] =
      { moves := [("a/b", "a/c")], remaining_added := [],
        remaining_removed := [] } := by
    intro f
    simp [monitorCore, monitorStep, revLookup, List.lookup]
  have hro : ∀ f : String, removedOrder [("a/b", f)] [("a/c", f)] = ["a/b"] :=
    fun f => rfl
  have hs : sC1am V X = sC1amR X := rfl
  have hp1 : (sC1amR X).baseline_keysums =
      [("a/b", fingerprint (PyVal.scalar X))] := rfl
  have hp2 : (sC1amR X).diffdict = ddC1am X := rfl
  have hpd : (sC1amR X).diffdict.data =
      mkD [("a", mkD [("c", PyVal.scalar X)])] := rfl
  have hps : (sC1amR X).separator = "/" := rfl
  have hpwl : (sC1amR X).watch_list = ["w"] := rfl
  have hcur : (ddC1am X).update_keysums =
      [("a/c", fingerprint (PyVal.scalar X))] := rfl
  have hmoves : (sC1am V X).monitor.moves = some ([("a/b", "a/c")], [], []) := by
    rw [hs]
    simp only [SyncDict.monitor]
    rw [hp1, hp2, hcur, hro, hmc]
  have hmonW : ∀ s : SyncDict, s.monitor.watch_list = s.watch_list :=
    fun s => rfl
  have hmonD : ∀ s : SyncDict, s.monitor.diffdict = s.diffdict :=
    fun s => rfl
  have hmonS : ∀ s : SyncDict, s.monitor.separator = s.separator :=
    fun s => rfl
  have happEq : ∀ (env : FileEnv) (s : SyncDict) mv adds rems,
      s.moves = some (mv, adds, rems) →
      SyncDict.applyChanges env s =
        s.watch_list.foldl
          (applyStep env s.diffdict.data s.separator mv adds rems) (s, []) := by
    intro env s mv adds rems h
    unfold SyncDict.applyChanges
    rw [h]
  have hpw : processWatch (envC1am V) (mkD [("a", mkD [("c", PyVal.scalar X)])])
      "/" [("a/b", "a/c")] [] [] "w" =
      .ok (mkD [("a", mkD [("c", PyVal.scalar V)])]) := by
    cases V with
    | pynone => exact absurd rfl hV
    | str s => rfl
    | int n => rfl
    | bool b => rfl
  refine ⟨hmoves, ?_, rfl, rfl⟩
  have happ := happEq (envC1am V) ((sC1am V X).monitor) _ _ _ hmoves
  rw [happ, hmonW, hmonD, hmonS, hs, hpd, hps, hpwl]
  simp only [List.foldl, applyStep, hpw, List.nil_append]

/-- C1 (witness): the amended move-preservation theorem applied at the
concrete dependent value `"V"` and base value `2`. -/
theorem C1_witness :
    (Scalar.str "V" ≠ Scalar.pynone) ∧
    ((sC1am (.str "V") (.int 2)).monitor.moves =
        some ([("a/b", "a/c")], [], []) ∧
     (SyncDict.applyChanges (envC1am (.str "V"))
        ((sC1am (.str "V") (.int 2)).monitor)).2 =
       [("w", mkD [("a", mkD [("c", PyVal.scalar (.str "V"))])])] ∧
     deep_get (mkD [("a", mkD [("c", PyVal.scalar (.str "V"))])]) "a/c" "/" =
       some (PyVal.scalar (.str "V")) ∧
     deep_get (mkD [("a", mkD [("c", PyVal.scalar (.str "V"))])]) "a/b" "/" =
       none) :=
  ⟨by decide, C1_move_preserves_amended (.str "V") (.int 2) (by decide)⟩
